import Mathlib

/-
  Verification of the Contract-Intelligence-Parser core pipeline.

  Shallow embedding of the Python sources:
    - backend/app/scoring.py            (ScoringEngine)
    - backend/app/direct_gemini_extractor.py (chunker, merge engine)
    - backend/app/gemini_analyzer.py    (semantic extraction adapter)

  Python objects are modelled by the JSON-like type `Val`; Python exceptions by
  `Except String`.  Exception *messages* are modelled only up to the exception
  class name (AttributeError / TypeError): no verified property depends on the
  precise message text.  Python floats are modelled by `ℚ`; every arithmetic
  value reachable in the scoring engine is a small multiple of 1/4, hence exactly
  representable as a double, so `ℚ` arithmetic agrees with the Python float
  arithmetic on all reachable values.
-/

namespace ContractIntelligence

/-- Model of a Python value (None / bool / int-or-float / str / list / dict).
Dicts are insertion-ordered association lists, as Python dicts are. -/
inductive Val where
  | null : Val
  | bool (b : Bool) : Val
  | num (q : ℚ) : Val
  | str (s : String) : Val
  | list (xs : List Val) : Val
  | dict (xs : List (String × Val)) : Val

mutual

/-- Structural equality on values, modelling Python `==` on the JSON-like
fragment (the cross-type numeric equalities of Python, such as `True == 1`,
are not needed by any merged data in this development). -/
def Val.beq : Val → Val → Bool
  | .null, .null => true
  | .bool a, .bool b => a == b
  | .num a, .num b => a == b
  | .str a, .str b => a == b
  | .list a, .list b => Val.beqL a b
  | .dict a, .dict b => Val.beqD a b
  | _, _ => false

/-- Elementwise equality of value lists. -/
def Val.beqL : List Val → List Val → Bool
  | [], [] => true
  | a :: as, b :: bs => Val.beq a b && Val.beqL as bs
  | _, _ => false

/-- Elementwise equality of dict entry lists. -/
def Val.beqD : List (String × Val) → List (String × Val) → Bool
  | [], [] => true
  | (k, v) :: as, (k', v') :: bs => k == k' && Val.beq v v' && Val.beqD as bs
  | _, _ => false

end

instance : BEq Val := ⟨Val.beq⟩

/-- Python truthiness (`bool(v)`): None, False, 0, "", [], {} are falsy. -/
def Val.truthy : Val → Bool
  | .null => false
  | .bool b => b
  | .num q => decide (q ≠ 0)
  | .str s => !s.isEmpty
  | .list xs => !xs.isEmpty
  | .dict xs => !xs.isEmpty

/-- First-match association-list lookup (Python dict keys are unique, so
first-match agrees with Python dict lookup). -/
def alook : List (String × Val) → String → Option Val
  | [], _ => Option.none
  | (k, v) :: rest, key => if k = key then some v else alook rest key

/-- Python dict assignment `d[k] = v`: update in place (keeping position) when
the key exists, append otherwise. -/
def dictSet : List (String × Val) → String → Val → List (String × Val)
  | [], k, v => [(k, v)]
  | (k', v') :: rest, k, v =>
      if k' = k then (k, v) :: rest else (k', v') :: dictSet rest k v

/-- Model of `d.get(key)` (default None); raises AttributeError when `d` is not
a dict, as Python does. -/
def Val.get1 : Val → String → Except String Val
  | .dict xs, key => .ok ((alook xs key).getD .null)
  | _, _ => .error "AttributeError"

/-- Model of `d.get(key, default)`. -/
def Val.getDef : Val → String → Val → Except String Val
  | .dict xs, key, dflt => .ok ((alook xs key).getD dflt)
  | _, _, _ => .error "AttributeError"

/-- Model of Python iteration `for x in v`: lists yield elements, strings yield
one-character strings, dicts yield their keys; anything else raises TypeError. -/
def Val.iter : Val → Except String (List Val)
  | .list xs => .ok xs
  | .str s => .ok (s.data.map fun c => .str (String.mk [c]))
  | .dict xs => .ok (xs.map fun kv => .str kv.1)
  | _ => .error "TypeError"

/-- Model of `v[:3]` followed by iteration (lists and strings are sliceable;
anything else raises TypeError). -/
def Val.take3iter : Val → Except String (List Val)
  | .list xs => .ok (xs.take 3)
  | .str s => .ok ((s.data.take 3).map fun c => .str (String.mk [c]))
  | _ => .error "TypeError"

/-- Key-presence test on a dict result value. -/
def Val.hasKey : Val → String → Bool
  | .dict xs, k => (alook xs k).isSome
  | _, _ => false

/- ----------------------------------------------------------------------
   ScoringEngine (backend/app/scoring.py)
   ---------------------------------------------------------------------- -/

/-- Bonus loop of `_calculate_financial_score`: +2 for each line item having
both a truthy description and a truthy unit_price; raises when an item is not
a dict, as `item.get` would. -/
def lineItemBonus : List Val → Except String ℕ
  | [] => .ok 0
  | item :: rest => do
      let d ← item.get1 "description"
      let u ← item.get1 "unit_price"
      let b ← lineItemBonus rest
      return (if d.truthy && u.truthy then 2 else 0) + b

/-- Model of `ScoringEngine._calculate_financial_score`.  Note that the source
line `score = min(score, 30)` caps the whole running total (which already
includes the 40 points for total_contract_value), not just the line-item
block; the embedding reproduces this. -/
def calcFinancialScore (pd : Val) : Except String ℕ := do
  let fd ← pd.get1 "financial_details"
  if !fd.truthy then return 0
  let s1 : ℕ := if (← fd.get1 "total_contract_value").truthy then 40 else 0
  let lineItems ← fd.getDef "line_items" (.list [])
  let s2 ←
    if lineItems.truthy then do
      let items ← lineItems.iter
      let b ← lineItemBonus items
      pure (min (s1 + 30 + b) 30)
    else pure s1
  let s3 := s2 + (if (← fd.get1 "currency").truthy then 10 else 0)
  let s4 := s3 + (if (← fd.get1 "tax_amount").truthy then 10 else 0)
  let s5 := s4 + (if (← fd.get1 "additional_fees").truthy then 10 else 0)
  return min s5 100

/-- Per-party accumulation in `_calculate_party_score`. -/
def partyFieldScore (party : Val) : Except String ℕ := do
  let a : ℕ := if (← party.get1 "name").truthy then 20 else 0
  let b := a + (if (← party.get1 "role").truthy then 15 else 0)
  let c := b + (if (← party.get1 "legal_entity").truthy then 15 else 0)
  let d := c + (if (← party.get1 "email").truthy then 10 else 0)
  let e := d + (if (← party.get1 "phone").truthy then 10 else 0)
  let f := e + (if (← party.get1 "address").truthy then 10 else 0)
  return f + (if (← party.get1 "registration_number").truthy then 10 else 0)

/-- Sum of `min(party_score, 80)` over a party list. -/
def partiesScore : List Val → Except String ℕ
  | [] => .ok 0
  | p :: rest => do
      let s ← partyFieldScore p
      let r ← partiesScore rest
      return min s 80 + r

/-- Model of `ScoringEngine._calculate_party_score`. -/
def calcPartyScore (pd : Val) : Except String ℕ := do
  let parties ← pd.getDef "parties" (.list [])
  if !parties.truthy then return 0
  let xs ← parties.take3iter
  let s ← partiesScore xs
  return min (20 + s) 100

/-- Model of `ScoringEngine._calculate_payment_score`. -/
def calcPaymentScore (pd : Val) : Except String ℕ := do
  let pt ← pd.get1 "payment_terms"
  if !pt.truthy then return 0
  let s1 : ℕ := if (← pt.get1 "payment_terms").truthy then 40 else 0
  let s2 := s1 + (if (← pt.get1 "payment_schedule").truthy then 25 else 0)
  let dd ← pt.getDef "due_dates" (.list [])
  let s3 := s2 + (if dd.truthy then 20 else 0)
  let pm ← pt.getDef "payment_methods" (.list [])
  let s4 := s3 + (if pm.truthy then 10 else 0)
  let s5 := s4 + (if (← pt.get1 "banking_details").truthy then 5 else 0)
  return min s5 100

/-- Model of `ScoringEngine._calculate_sla_score`. -/
def calcSlaScore (pd : Val) : Except String ℕ := do
  let sla ← pd.get1 "sla"
  if !sla.truthy then return 0
  let pmx ← sla.getDef "performance_metrics" (.list [])
  let s1 : ℕ := if pmx.truthy then 30 else 0
  let pc ← sla.getDef "penalty_clauses" (.list [])
  let s2 := s1 + (if pc.truthy then 25 else 0)
  let s3 := s2 + (if (← sla.get1 "support_terms").truthy then 25 else 0)
  let s4 := s3 + (if (← sla.get1 "maintenance_terms").truthy then 20 else 0)
  return min s4 100

/-- Contact-search loop of `_calculate_contact_score` (stops at the first party
with a truthy email or phone). -/
def anyContact : List Val → Except String Bool
  | [] => .ok false
  | p :: rest => do
      if (← p.get1 "email").truthy || (← p.get1 "phone").truthy then return true
      anyContact rest

/-- Model of `ScoringEngine._calculate_contact_score`. -/
def calcContactScore (pd : Val) : Except String ℕ := do
  let ai ← pd.get1 "account_info"
  let s1 ←
    if ai.truthy then do
      let a : ℕ := if (← ai.get1 "contact_email").truthy then 25 else 0
      let b := a + (if (← ai.get1 "contact_phone").truthy then 15 else 0)
      pure (b + (if (← ai.get1 "technical_support_contact").truthy then 10 else 0))
    else pure 0
  let parties ← pd.getDef "parties" (.list [])
  let ps ← parties.iter
  let found ← anyContact ps
  return min (s1 + (if found then 50 else 0)) 100

/-- Per-party loop of `_identify_gaps` (messages use 1-based indices). -/
def partyGaps : ℕ → List Val → Except String (List String)
  | _, [] => .ok []
  | i, p :: rest => do
      let g1 : List String :=
        if (← p.get1 "name").truthy then []
        else ["Party " ++ toString (i + 1) ++ ": Missing name"]
      let g2 : List String :=
        if (← p.get1 "role").truthy then []
        else ["Party " ++ toString (i + 1) ++ ": Missing role"]
      let r ← partyGaps (i + 1) rest
      return g1 ++ g2 ++ r

/-- Parties section of `_identify_gaps`. -/
def gapsParties (pd : Val) : Except String (List String) := do
  let parties ← pd.getDef "parties" (.list [])
  if !parties.truthy then pure ["No contract parties identified"]
  else do partyGaps 0 (← parties.iter)

/-- Financial section of `_identify_gaps`. -/
def gapsFinancial (pd : Val) : Except String (List String) := do
  let fd ← pd.get1 "financial_details"
  if !fd.truthy then pure ["No financial details found"]
  else do
    let a : List String :=
      if (← fd.get1 "total_contract_value").truthy then []
      else ["Missing total contract value"]
    let b : List String :=
      if (← fd.get1 "line_items").truthy then [] else ["No line items found"]
    pure (a ++ b)

/-- Payment section of `_identify_gaps`. -/
def gapsPayment (pd : Val) : Except String (List String) := do
  let pt ← pd.get1 "payment_terms"
  if !pt.truthy then pure ["No payment terms found"]
  else do
    pure (if (← pt.get1 "payment_terms").truthy then ([] : List String)
          else ["Missing payment terms (Net 30, Net 60, etc.)"])

/-- Account section of `_identify_gaps`. -/
def gapsAccount (pd : Val) : Except String (List String) := do
  let ai ← pd.get1 "account_info"
  if !ai.truthy then pure ["No account information found"]
  else do
    pure (if (← ai.get1 "contact_email").truthy then ([] : List String)
          else ["Missing contact email"])

/-- Revenue section of `_identify_gaps`. -/
def gapsRevenue (pd : Val) : Except String (List String) := do
  let rc ← pd.get1 "revenue_classification"
  if !rc.truthy then pure ["No revenue classification found"]
  else do
    pure (if (← rc.get1 "payment_type").truthy then ([] : List String)
          else ["Missing payment type (recurring/one-time)"])

/-- SLA section of `_identify_gaps`. -/
def gapsSla (pd : Val) : Except String (List String) := do
  let sla ← pd.get1 "sla"
  if !sla.truthy then pure ["No SLA information found"]
  else do
    let a : List String :=
      if (← sla.get1 "performance_metrics").truthy then []
      else ["No performance metrics defined"]
    let b : List String :=
      if (← sla.get1 "support_terms").truthy then []
      else ["No support terms defined"]
    pure (a ++ b)

/-- Model of `ScoringEngine._identify_gaps`, section by section in source
order. -/
def identifyGaps (pd : Val) : Except String (List String) := do
  let g1 ← gapsParties pd
  let g2 ← gapsFinancial pd
  let g3 ← gapsPayment pd
  let g4 ← gapsAccount pd
  let g5 ← gapsRevenue pd
  let g6 ← gapsSla pd
  let g7 : List String :=
    if (← pd.get1 "contract_start_date").truthy then []
    else ["Missing contract start date"]
  let g8 : List String :=
    if (← pd.get1 "contract_end_date").truthy then []
    else ["Missing contract end date"]
  return g1 ++ g2 ++ g3 ++ g4 ++ g5 ++ g6 ++ g7 ++ g8

/-- Model of Python `round(x, 2)`.  All values reachable in the scoring engine
are multiples of 1/4 (each component score is a multiple of 5 and each weight a
multiple of 5), where rounding to two decimals is the identity and Python's
round-half-even agrees with mathematical rounding. -/
def round2 (q : ℚ) : ℚ := (round (q * 100) : ℚ) / 100

/-- Body of `calculate_score` inside the try-block: the five component scores,
the weighted overall score, and the gap list. -/
def scoreBody (pd : Val) : Except String (ℚ × List String) := do
  let f ← calcFinancialScore pd
  let p ← calcPartyScore pd
  let pay ← calcPaymentScore pd
  let s ← calcSlaScore pd
  let c ← calcContactScore pd
  let overall : ℚ :=
    ((f : ℚ) * 30 + (p : ℚ) * 25 + (pay : ℚ) * 20 + (s : ℚ) * 15 + (c : ℚ) * 10) / 100
  let gaps ← identifyGaps pd
  return (round2 overall, gaps)

/-- Model of `ScoringEngine.calculate_score`: the surrounding try/except turns
any internal exception into `(0.0, ["Scoring error: ..."])`. -/
def calculate_score (pd : Val) : ℚ × List String :=
  match scoreBody pd with
  | .ok r => r
  | .error e => (0, ["Scoring error: " ++ e])

/- ----------------------------------------------------------------------
   Chunker: `DirectGeminiExtractor._split_text_into_chunks`
   (backend/app/direct_gemini_extractor.py).  Text is modelled as `List Char`.
   The `while` loop is modelled with explicit fuel (`Option.none` = the loop
   did not finish within the given fuel).  `start = end - overlap` is modelled
   with truncated `Nat` subtraction; Python instead produces a negative index
   there (reachable only when `overlap` exceeds the computed end, outside
   every configuration considered below).
   ---------------------------------------------------------------------- -/

/-- Sentence-terminator test (`text[i] in '.!?'`). -/
def isSentenceEnd (c : Char) : Bool := c = '.' || c = '!' || c = '?'

/-- Backward scan `for i in range(end, max(start+chunk_size-200, start), -1)`:
returns the largest index `i` with `lo < i ≤ start index` whose character is a
sentence terminator.  Out-of-range reads cannot occur at call sites (the scan
is only entered when the naive end lies inside the text). -/
def findBoundary (text : List Char) (lo : Nat) : Nat → Option Nat
  | 0 => Option.none
  | i + 1 =>
      if i + 1 ≤ lo then Option.none
      else if isSentenceEnd (text.getD (i + 1) ' ') then some (i + 1)
      else findBoundary text lo i

/-- The adjusted end index of the chunk starting at `start`: the naive end
`start + chunk_size`, pulled back to just after a sentence terminator when the
naive end lies strictly inside the text and one is found in the backward
window. -/
def chunkEnd (text : List Char) (cs start : Nat) : Nat :=
  if start + cs < text.length then
    match findBoundary text (max (start + cs - 200) start) (start + cs) with
    | some i => i + 1
    | Option.none => start + cs
  else start + cs

/-- Fueled model of the chunking `while` loop, returning the list of chunks
(`text[start:end]` slices). -/
def splitLoop (text : List Char) (cs ov : Nat) : Nat → Nat → Option (List (List Char))
  | 0, _ => Option.none
  | fuel + 1, start =>
      if start < text.length then
        let e := chunkEnd text cs start
        let chunk := (text.drop start).take (e - start)
        let start' := e - ov
        if text.length ≤ start' then some [chunk]
        else
          match splitLoop text cs ov fuel start' with
          | some rest => some (chunk :: rest)
          | Option.none => Option.none
      else some []

/-- The same loop returning the `(start, end)` index pairs of the chunks
instead of the slices. -/
def spanLoop (text : List Char) (cs ov : Nat) : Nat → Nat → Option (List (Nat × Nat))
  | 0, _ => Option.none
  | fuel + 1, start =>
      if start < text.length then
        let e := chunkEnd text cs start
        let start' := e - ov
        if text.length ≤ start' then some [(start, e)]
        else
          match spanLoop text cs ov fuel start' with
          | some rest => some ((start, e) :: rest)
          | Option.none => Option.none
      else some []

/-- The extractor's fixed parameters (`self.chunk_size`, `self.overlap`). -/
def chunk_size : Nat := 8000

/-- The extractor's fixed overlap parameter. -/
def overlap : Nat := 1000

/-- Model of `_split_text_into_chunks` with the extractor's parameters.  The
fuel `text.length + 1` is sufficient whenever the Python loop terminates with
a strictly increasing start index, which the theorems below establish for the
actual parameters. -/
def split_text_into_chunks (text : List Char) : Option (List (List Char)) :=
  splitLoop text chunk_size overlap (text.length + 1) 0

/- ----------------------------------------------------------------------
   Merge engine: `DirectGeminiExtractor._combine_analyses`
   ---------------------------------------------------------------------- -/

/-- Model of the membership test `key in analysis` (analyses are dicts; a
non-dict container raises here in the model, standing for the non-dict
behaviours of Python `in` that no analysis object exercises). -/
def Val.contains1 : Val → String → Except String Bool
  | .dict xs, k => .ok (alook xs k).isSome
  | _, _ => .error "TypeError"

/-- Model of subscription `analysis[key]` on a dict. -/
def Val.sub : Val → String → Except String Val
  | .dict xs, k =>
      match alook xs k with
      | some v => .ok v
      | Option.none => .error "KeyError"
  | _, _ => .error "TypeError"

/-- Model of `d.items()` (requires a dict). -/
def Val.items : Val → Except String (List (String × Val))
  | .dict xs => .ok xs
  | _ => .error "AttributeError"

/-- ASCII lowercasing, modelling Python `str.lower()` on the ASCII names the
data carries. -/
def strLower (s : String) : String := String.mk (s.data.map Char.toLower)

/-- Model of `party.get('name', '').lower()`: the name must be a string (or
absent, defaulting to the empty string); anything else raises as `.lower()`
would. -/
def partyKeyOf (p : Val) : Except String String := do
  let n ← p.getDef "name" (.str "")
  match n with
  | .str s => .ok (strLower s)
  | _ => .error "AttributeError"

/-- Inner loop of the party merge over one analysis's party list, threading the
accumulated output list and the `seen_parties` set (modelled as a list of the
lowercased names in first-seen order; only membership is used). -/
def partiesFold : List Val × List String → List Val → Except String (List Val × List String)
  | acc, [] => .ok acc
  | (out, seen), p :: rest => do
      let key ← partyKeyOf p
      if !key.isEmpty && !seen.contains key then
        partiesFold (out ++ [p], seen ++ [key]) rest
      else partiesFold (out, seen) rest

/-- Outer loop of the party merge over the analyses. -/
def combinePartiesLoop : List Val × List String → List Val → Except String (List Val × List String)
  | acc, [] => .ok acc
  | acc, a :: rest => do
      let has ← a.contains1 "parties"
      if has then do
        let ps ← (← a.sub "parties").iter
        let acc' ← partiesFold acc ps
        combinePartiesLoop acc' rest
      else combinePartiesLoop acc rest

/-- One pass of a single-object section merge over one analysis's items:
`if value and (key not in combined or not combined[key]): combined[key] = value`. -/
def mergeSectionItems : List (String × Val) → List (String × Val) → List (String × Val)
  | combined, [] => combined
  | combined, (k, v) :: rest =>
      let keep :=
        v.truthy &&
          (match alook combined k with
           | some w => !w.truthy
           | Option.none => true)
      mergeSectionItems (if keep then dictSet combined k v else combined) rest

/-- Section merge loop over the analyses for one single-object category. -/
def mergeSection (sec : String) : List (String × Val) → List Val → Except String (List (String × Val))
  | acc, [] => .ok acc
  | acc, a :: rest => do
      let has ← a.contains1 sec
      if has then do
        let items ← (← a.sub sec).items
        mergeSection sec (mergeSectionItems acc items) rest
      else mergeSection sec acc rest

/-- Deduplicating append for the list categories: skip falsy items and items
already present (by value equality). -/
def dedupAppend : List Val → List Val → List Val
  | acc, [] => acc
  | acc, x :: rest =>
      dedupAppend (if x.truthy && !acc.contains x then acc ++ [x] else acc) rest

/-- Per-analysis step of the list-category merge, handling the three keys in
the source's order. -/
def listsStep (acc : List Val × List Val × List Val) (a : Val) :
    Except String (List Val × List Val × List Val) := do
  let (kt, rf, ci) := acc
  let hasKt ← a.contains1 "key_terms"
  let kt' ← if hasKt then do pure (dedupAppend kt (← (← a.sub "key_terms").iter)) else pure kt
  let hasRf ← a.contains1 "risk_factors"
  let rf' ← if hasRf then do pure (dedupAppend rf (← (← a.sub "risk_factors").iter)) else pure rf
  let hasCi ← a.contains1 "compliance_issues"
  let ci' ← if hasCi then do pure (dedupAppend ci (← (← a.sub "compliance_issues").iter)) else pure ci
  return (kt', rf', ci')

/-- Loop of the list-category merge over the analyses. -/
def listsLoop : List Val × List Val × List Val → List Val → Except String (List Val × List Val × List Val)
  | acc, [] => .ok acc
  | acc, a :: rest => do listsLoop (← listsStep acc a) rest

/-- Collection of the per-chunk `confidence_scores['overall']` values. -/
def collectConf : List Val → Except String (List Val)
  | [] => .ok []
  | a :: rest => do
      let has ← a.contains1 "confidence_scores"
      let keep ← if has then (← a.sub "confidence_scores").contains1 "overall" else pure false
      if keep then do
        let v ← (← a.sub "confidence_scores").sub "overall"
        let r ← collectConf rest
        return v :: r
      else collectConf rest

/-- Model of Python `sum(...)` over the collected confidence values (numbers
and booleans are summable; anything else raises TypeError). -/
def sumConf : List Val → Except String ℚ
  | [] => .ok 0
  | v :: rest => do
      let s ← sumConf rest
      match v with
      | .num q => .ok (q + s)
      | .bool b => .ok ((if b then 1 else 0) + s)
      | _ => .error "TypeError"

/-- Model of `DirectGeminiExtractor._combine_analyses`: parties (deduplicated,
first occurrence wins), the four single-object sections (per-key first-truthy
wins), the three list categories (order-preserving deduplication), and the
averaged overall confidence (default 0.8 when no chunk reported one).  Keys
appear in the insertion order of the source's `combined` literal. -/
def combine_analyses (analyses : List Val) : Except String Val := do
  let (parties, _) ← combinePartiesLoop ([], []) analyses
  let fin ← mergeSection "financial_details" [] analyses
  let pay ← mergeSection "payment_terms" [] analyses
  let sla ← mergeSection "sla" [] analyses
  let dates ← mergeSection "contract_dates" [] analyses
  let (kt, rf, ci) ← listsLoop ([], [], []) analyses
  let confs ← collectConf analyses
  let overall : ℚ ←
    if !confs.isEmpty then do
      let s ← sumConf confs
      pure (s / confs.length)
    else pure (4 / 5)
  return .dict
    [("parties", .list parties),
     ("financial_details", .dict fin),
     ("payment_terms", .dict pay),
     ("sla", .dict sla),
     ("contract_dates", .dict dates),
     ("key_terms", .list kt),
     ("risk_factors", .list rf),
     ("compliance_issues", .list ci),
     ("confidence_scores", .dict [("overall", .num overall)])]

/- ----------------------------------------------------------------------
   Semantic extraction adapter: `GeminiContractAnalyzer`
   (backend/app/gemini_analyzer.py)
   ---------------------------------------------------------------------- -/

/-- Model of `GeminiContractAnalyzer._get_default_summary`. -/
def get_default_summary : Val := .dict
  [("overview", .str "Contract summary could not be generated"),
   ("parties_involved", .list []),
   ("key_terms", .list []),
   ("financial_summary", .str "Financial details not available"),
   ("contract_duration", .str "Unknown"),
   ("main_obligations", .list []),
   ("risk_level", .str "Unknown"),
   ("compliance_status", .str "Unknown")]

/-- Model of `GeminiContractAnalyzer._get_fallback_data`.  Note the literal in
the source has no "account_info" entry. -/
def get_fallback_data : Val := .dict
  [("overview", .str "Contract analysis could not be completed"),
   ("parties", .list []),
   ("financial_details", .dict []),
   ("payment_terms", .dict []),
   ("revenue_classification", .dict []),
   ("sla", .dict []),
   ("important_dates", .dict []),
   ("key_terms", .list []),
   ("main_obligations", .list []),
   ("risk_factors", .list []),
   ("compliance_issues", .list []),
   ("contract_type", .str "Unknown"),
   ("confidence_scores", .dict []),
   ("summary", get_default_summary)]

/-- Model of `_validate_and_clean_result` on a parsed dict: insert `{}` for the
missing required fields, coerce `parties` to a list of dicts, coerce the two
section fields to dicts and `summary` to a dict (default summary otherwise).
A non-dict parse result raises on the first item assignment and the
surrounding try/except yields the fallback. -/
def validate_and_clean (data : Val) : Val :=
  match data with
  | .dict xs =>
      let xs := if (alook xs "parties").isSome then xs else dictSet xs "parties" (.dict [])
      let xs := if (alook xs "financial_details").isSome then xs else dictSet xs "financial_details" (.dict [])
      let xs := if (alook xs "payment_terms").isSome then xs else dictSet xs "payment_terms" (.dict [])
      let xs := if (alook xs "summary").isSome then xs else dictSet xs "summary" (.dict [])
      let xs :=
        match alook xs "parties" with
        | some (.list ps) => dictSet xs "parties" (.list (ps.filter fun p => match p with | .dict _ => true | _ => false))
        | _ => dictSet xs "parties" (.list [])
      let xs :=
        match alook xs "financial_details" with
        | some (.dict _) => xs
        | _ => dictSet xs "financial_details" (.dict [])
      let xs :=
        match alook xs "payment_terms" with
        | some (.dict _) => xs
        | _ => dictSet xs "payment_terms" (.dict [])
      let xs :=
        match alook xs "summary" with
        | some (.dict _) => xs
        | _ => dictSet xs "summary" get_default_summary
      .dict xs
  | _ => get_fallback_data

/-- Model of the fence-stripping in `_parse_ai_response`: strip whitespace,
then drop a leading "```json" and a trailing "```". -/
def cleanResponse (t : String) : String :=
  let c := t.trim
  let c := if c.startsWith "```json" then c.drop 7 else c
  if c.endsWith "```" then c.dropRight 3 else c

/-- Model of `_parse_ai_response`, with `json.loads` supplied as an
environment oracle `jsonParse` (`Option.none` = JSONDecodeError). -/
def parse_ai_response (jsonParse : String → Option Val) (t : String) : Val :=
  match jsonParse (cleanResponse t) with
  | Option.none => get_fallback_data
  | some v => validate_and_clean v

/-- Model of `GeminiContractAnalyzer.analyze_contract`.  The adapter state and
the external call are the environment: `enabled` is the credential flag set in
`__init__`, and `response` is the outcome of `generate_content` (`Option.none`
= the call raised).  The function is total: no exception reaches the caller. -/
def analyze_contract (enabled : Bool) (response : Option String)
    (jsonParse : String → Option Val) : Val :=
  if !enabled then get_fallback_data
  else
    match response with
    | Option.none => get_fallback_data
    | some t => parse_ai_response jsonParse t

/- ----------------------------------------------------------------------
   Specification-side functions and accessors used by theorem statements
   ---------------------------------------------------------------------- -/

/-- Left-biased option choice (used to state first-wins lookups). -/
def oOr : Option Val → Option Val → Option Val
  | some x, _ => some x
  | Option.none, b => b

/-- Read a top-level key of a result value. -/
def Val.at1 : Val → String → Option Val
  | .dict xs, k => alook xs k
  | _, _ => Option.none

/-- Read a key of a dict-valued top-level section of a result value. -/
def Val.at2 (v : Val) (sec k : String) : Option Val :=
  match v.at1 sec with
  | some (.dict ys) => alook ys k
  | _ => Option.none

/-- The lowercased name of a party entry (empty when the name is missing,
empty, or not a string). -/
def lowerName (p : Val) : String :=
  match p with
  | .dict ys =>
      match alook ys "name" with
      | some (.str s) => strLower s
      | _ => ""
  | _ => ""

/-- The party list carried by one analysis (empty when absent). -/
def partiesOf (a : Val) : List Val :=
  match a with
  | .dict xs =>
      match alook xs "parties" with
      | some (.list ps) => ps
      | _ => []
  | _ => []

/-- Concatenation of the analyses' party lists in input order. -/
def flatParties : List Val → List Val
  | [] => []
  | a :: rest => partiesOf a ++ flatParties rest

/-- Pure mirror of the party-merge fold: keep the first occurrence of each
nonempty case-insensitive name, drop the rest. -/
def dedupeGo : List Val × List String → List Val → List Val × List String
  | acc, [] => acc
  | (out, seen), p :: rest =>
      if !(lowerName p).isEmpty && !seen.contains (lowerName p) then
        dedupeGo (out ++ [p], seen ++ [lowerName p]) rest
      else dedupeGo (out, seen) rest

/-- The items of one analysis's single-object section (empty when absent). -/
def sectionItemsOf (a : Val) (sec : String) : List (String × Val) :=
  match a with
  | .dict xs =>
      match alook xs sec with
      | some (.dict ys) => ys
      | _ => []
  | _ => []

/-- Concatenation of the analyses' items for one section, in input order. -/
def flatSection : List Val → String → List (String × Val)
  | [], _ => []
  | a :: rest, sec => sectionItemsOf a sec ++ flatSection rest sec

/-- First truthy value bound to key `k` within a single items list. -/
def firstTruthyItems : List (String × Val) → String → Option Val
  | [], _ => Option.none
  | (k0, v) :: rest, k =>
      if k0 = k ∧ v.truthy = true then some v else firstTruthyItems rest k

/-- First truthy value bound to key `k` of section `sec` across the ordered
analyses: the specification of first-wins merging. -/
def firstTruthy (as : List Val) (sec k : String) : Option Val :=
  firstTruthyItems (flatSection as sec) k

/-- Every value stored in the dict is truthy — an invariant of the section
accumulator (only truthy values are ever inserted). -/
def AllTruthyD (d : List (String × Val)) : Prop :=
  ∀ k v, alook d k = some v → v.truthy = true

/- ----------------------------------------------------------------------
   Well-formedness predicates (decidable, used as theorem hypotheses)
   ---------------------------------------------------------------------- -/

/-- Dict test. -/
def isDictB : Val → Bool
  | .dict _ => true
  | _ => false

/-- A party entry the merge can process: a dict whose name, when present, is a
string. -/
def wfPartyB : Val → Bool
  | .dict ys =>
      match alook ys "name" with
      | Option.none => true
      | some (.str _) => true
      | some _ => false
  | _ => false

/-- A single-object section value: absent or a dict. -/
def optSecB : Option Val → Bool
  | Option.none => true
  | some (.dict _) => true
  | some _ => false

/-- A list-category value: absent or a list. -/
def optListB : Option Val → Bool
  | Option.none => true
  | some (.list _) => true
  | some _ => false

/-- A confidence_scores value: absent, or a dict whose overall entry (when
present) is numeric. -/
def confB : Option Val → Bool
  | Option.none => true
  | some (.dict cs) =>
      match alook cs "overall" with
      | Option.none => true
      | some (.num _) => true
      | some (.bool _) => true
      | some _ => false
  | some _ => false

/-- An analysis object the merge engine can process without raising. -/
def wfAnalysisB : Val → Bool
  | .dict xs =>
      (match alook xs "parties" with
       | Option.none => true
       | some (.list ps) => ps.all wfPartyB
       | some _ => false) &&
      optSecB (alook xs "financial_details") &&
      optSecB (alook xs "payment_terms") &&
      optSecB (alook xs "sla") &&
      optSecB (alook xs "contract_dates") &&
      optListB (alook xs "key_terms") &&
      optListB (alook xs "risk_factors") &&
      optListB (alook xs "compliance_issues") &&
      confB (alook xs "confidence_scores")
  | _ => false

/-- Truthiness of an entry of a dict body (missing keys read as None). -/
def truthyAt (ys : List (String × Val)) (k : String) : Bool :=
  ((alook ys k).getD .null).truthy

/-- The shape of the merged result dict, in the insertion order of the
source's `combined` literal. -/
def combinedDict (parties : List Val) (fin pay sl dt : List (String × Val))
    (kt rf ci : List Val) (q : ℚ) : Val := .dict
  [("parties", .list parties),
   ("financial_details", .dict fin),
   ("payment_terms", .dict pay),
   ("sla", .dict sl),
   ("contract_dates", .dict dt),
   ("key_terms", .list kt),
   ("risk_factors", .list rf),
   ("compliance_issues", .list ci),
   ("confidence_scores", .dict [("overall", .num q)])]

/-- A scoring category value that is either falsy or a dict. -/
def falsyOrDictOpt : Option Val → Bool
  | Option.none => true
  | some v => !v.truthy || isDictB v

/-- A line_items value the financial scorer can process. -/
def lineItemsOkB : Option Val → Bool
  | Option.none => true
  | some v => !v.truthy || (match v with | .list xs => xs.all isDictB | _ => false)

/-- A financial_details value the financial scorer can process. -/
def fdOkB : Option Val → Bool
  | Option.none => true
  | some v =>
      match v with
      | .dict fs => lineItemsOkB (alook fs "line_items")
      | _ => !v.truthy

/-- A parties value every scorer can process: a list of dicts, or one of the
falsy iterables (empty string or empty dict), or absent.  Falsy non-iterables
(None, 0, False) are excluded because the contact scorer iterates the value
unconditionally, as the Python does. -/
def partiesOkB : Option Val → Bool
  | Option.none => true
  | some v =>
      match v with
      | .list ps => ps.all isDictB
      | .str s => s.isEmpty
      | .dict d => d.isEmpty
      | _ => false

/-- A parsed_data dict body on which the scoring engine raises no exception. -/
def wfParsed (xs : List (String × Val)) : Bool :=
  fdOkB (alook xs "financial_details") &&
  partiesOkB (alook xs "parties") &&
  falsyOrDictOpt (alook xs "payment_terms") &&
  falsyOrDictOpt (alook xs "sla") &&
  falsyOrDictOpt (alook xs "account_info") &&
  falsyOrDictOpt (alook xs "revenue_classification")

/- ----------------------------------------------------------------------
   Concrete inputs used by counterexamples, code-bug evaluations, witnesses
   ---------------------------------------------------------------------- -/

/-- The spec's complete-contract financial scenario: total_contract_value
50000, currency USD, two line items with description and unit_price, tax 5000,
additional fees 1000. -/
def c1Input : Val := .dict
  [("financial_details", .dict
    [("total_contract_value", .num 50000),
     ("currency", .str "USD"),
     ("line_items", .list
       [.dict [("description", .str "Software License"), ("unit_price", .num 2000)],
        .dict [("description", .str "Support"), ("unit_price", .num 1000)]]),
     ("tax_amount", .num 5000),
     ("additional_fees", .num 1000)])]

/-- A malformed scoring input: a well-formed party plus a financial_details
value of the wrong shape (an int). -/
def c8BadInput : Val := .dict
  [("parties", .list [.dict [("name", .str "A")]]),
   ("financial_details", .num 7)]

/-- An 11-character text "ab.cdefghij" on which the chunking loop cycles
forever for chunk_size 5 and overlap 3. -/
def c9Text : List Char := ['a', 'b', '.', 'c', 'd', 'e', 'f', 'g', 'h', 'i', 'j']

/-- A single-object analysis setting payment_terms.banking_details to "X". -/
def mergeA : Val := .dict [("payment_terms", .dict [("banking_details", .str "X")])]

/-- A single-object analysis setting payment_terms.banking_details to "Y". -/
def mergeB : Val := .dict [("payment_terms", .dict [("banking_details", .str "Y")])]

/-- An analysis contributing the party "Acme Corp". -/
def mergeP1 : Val := .dict
  [("parties", .list [.dict [("name", .str "Acme Corp"), ("role", .str "customer")]])]

/-- An analysis contributing the party "ACME CORP" (same name up to case) and a
nameless party. -/
def mergeP2 : Val := .dict
  [("parties", .list
    [.dict [("name", .str "ACME CORP"), ("role", .str "vendor")],
     .dict [("role", .str "third_party")]])]

/- ----------------------------------------------------------------------
   Helper lemmas
   ---------------------------------------------------------------------- -/

@[simp]
lemma exBind_ok {α β : Type} (a : α) (f : α → Except String β) :
    (Except.ok a >>= f : Except String β) = f a := rfl

@[simp]
lemma exBind_err {α β : Type} (e : String) (f : α → Except String β) :
    ((Except.error e : Except String α) >>= f) = Except.error e := rfl

@[simp]
lemma exPure {α : Type} (a : α) : (pure a : Except String α) = Except.ok a := rfl

@[simp]
lemma get1_dict (xs : List (String × Val)) (k : String) :
    Val.get1 (.dict xs) k = .ok ((alook xs k).getD .null) := rfl

@[simp]
lemma getDef_dict (xs : List (String × Val)) (k : String) (d : Val) :
    Val.getDef (.dict xs) k d = .ok ((alook xs k).getD d) := rfl

@[simp]
lemma truthy_null : Val.truthy .null = false := rfl

@[simp]
lemma truthy_list (xs : List Val) : Val.truthy (.list xs) = !xs.isEmpty := rfl

@[simp]
lemma truthy_dict (xs : List (String × Val)) : Val.truthy (.dict xs) = !xs.isEmpty := rfl

@[simp]
lemma iter_list (xs : List Val) : Val.iter (.list xs) = .ok xs := rfl

@[simp]
lemma take3iter_list (xs : List Val) : Val.take3iter (.list xs) = .ok (xs.take 3) := rfl

/-- Rounding to two decimals is the identity on a natural number divided by
100, which covers every overall score the engine produces. -/
lemma round2_div100 (S : ℕ) : round2 ((S : ℚ) / 100) = (S : ℚ) / 100 := by
  have h : ((S : ℚ) / 100) * 100 = (S : ℚ) := by
    field_simp
  simp [round2, h]

/-- Rounding to two decimals fixes zero. -/
lemma round2_zero : round2 0 = 0 := by
  simp [round2]

/- ----------------------------------------------------------------------
   C1.  Scoring the spec's complete financial scenario.
   ---------------------------------------------------------------------- -/

/-- C1 (code bug evaluation): on the spec's complete-contract financial
scenario the engine returns 60, not the specified 100, because the source line
`score = min(score, 30)` caps the whole running total (erasing the 40 points
already granted for total_contract_value) instead of capping only the
line-item block its comment describes. -/
theorem financial_score_caps_total_at_scenario :
    calcFinancialScore c1Input = .ok 60 ∧ (60 : ℕ) ≠ 100 :=
  ⟨rfl, by decide⟩

/- ----------------------------------------------------------------------
   C6.  Party identification score for one fully populated party.
   ---------------------------------------------------------------------- -/

/-- C6: for an input whose parties list is exactly one party carrying truthy
name, role, legal_entity, email, phone, address and registration_number, the
party_identification component equals 100 (base 20 plus the per-party sum 90
capped at 80). -/
theorem party_score_full_party_100 (xs ys : List (String × Val))
    (hp : alook xs "parties" = some (.list [Val.dict ys]))
    (hname : truthyAt ys "name" = true)
    (hrole : truthyAt ys "role" = true)
    (hleg : truthyAt ys "legal_entity" = true)
    (hemail : truthyAt ys "email" = true)
    (hphone : truthyAt ys "phone" = true)
    (haddr : truthyAt ys "address" = true)
    (hreg : truthyAt ys "registration_number" = true) :
    calcPartyScore (Val.dict xs) = .ok 100 := by
  simp only [truthyAt] at hname hrole hleg hemail hphone haddr hreg
  simp [calcPartyScore, partiesScore, partyFieldScore, hp,
        hname, hrole, hleg, hemail, hphone, haddr, hreg]

/-- Witness for C6 at a concrete single-party input. -/
theorem party_score_full_party_100_witness :
    calcPartyScore (Val.dict
      [("parties", Val.list [Val.dict
        [("name", Val.str "ABC Company Inc."), ("role", Val.str "customer"),
         ("legal_entity", Val.str "ABC Company Inc."), ("email", Val.str "contact@abc.com"),
         ("phone", Val.str "(555) 123-4567"), ("address", Val.str "123 Main St"),
         ("registration_number", Val.str "REG123")]])]) = .ok 100 :=
  party_score_full_party_100 _ _ rfl rfl rfl rfl rfl rfl rfl rfl

/- ----------------------------------------------------------------------
   C7.  Scoring an input with every category absent.
   ---------------------------------------------------------------------- -/

/-- C7: when every scored category key is absent, the overall score is exactly
0 and the gap list is exactly the eight expected messages. -/
theorem empty_contract_scores_zero_with_gaps (xs : List (String × Val))
    (h1 : alook xs "parties" = Option.none)
    (h2 : alook xs "financial_details" = Option.none)
    (h3 : alook xs "payment_terms" = Option.none)
    (h4 : alook xs "account_info" = Option.none)
    (h5 : alook xs "revenue_classification" = Option.none)
    (h6 : alook xs "sla" = Option.none)
    (h7 : alook xs "contract_start_date" = Option.none)
    (h8 : alook xs "contract_end_date" = Option.none) :
    calculate_score (Val.dict xs) =
      (0, ["No contract parties identified", "No financial details found",
           "No payment terms found", "No account information found",
           "No revenue classification found", "No SLA information found",
           "Missing contract start date", "Missing contract end date"]) := by
  have hb : scoreBody (Val.dict xs) =
      .ok (round2 0,
        ["No contract parties identified", "No financial details found",
         "No payment terms found", "No account information found",
         "No revenue classification found", "No SLA information found",
         "Missing contract start date", "Missing contract end date"]) := by
    simp [scoreBody, calcFinancialScore, calcPartyScore, calcPaymentScore,
          calcSlaScore, calcContactScore, anyContact, identifyGaps, gapsParties,
          gapsFinancial, gapsPayment, gapsAccount, gapsRevenue, gapsSla, Val.iter,
          h1, h2, h3, h4, h5, h6, h7, h8]
  simp [calculate_score, hb, round2_zero]

/-- Witness for C7 at the empty input dict. -/
theorem empty_contract_scores_zero_with_gaps_witness :
    calculate_score (Val.dict []) =
      (0, ["No contract parties identified", "No financial details found",
           "No payment terms found", "No account information found",
           "No revenue classification found", "No SLA information found",
           "Missing contract start date", "Missing contract end date"]) :=
  empty_contract_scores_zero_with_gaps [] rfl rfl rfl rfl rfl rfl rfl rfl

/- ----------------------------------------------------------------------
   C3.  The semantic extraction adapter's failure object.
   ---------------------------------------------------------------------- -/

/-- C3 (counterexample): in the disabled-credential failure mode the adapter
returns its fallback object, and that object has no "account_info" key at all,
contradicting the claim that every failure result carries all thirteen listed
top-level keys. -/
theorem fallback_missing_account_info :
    analyze_contract false Option.none (fun _ => Option.none) = get_fallback_data ∧
    Val.hasKey get_fallback_data "account_info" = false ∧
    Val.hasKey get_fallback_data "parties" = true :=
  ⟨rfl, rfl, rfl⟩

/-- C3 (amended): whenever the adapter fails (disabled credential, call error,
or unparseable model output) it returns the fixed fallback object, which
carries the twelve keys parties, financial_details, payment_terms,
revenue_classification, sla, important_dates, key_terms, risk_factors,
compliance_issues, contract_type, confidence_scores and summary with
empty/default values, but not account_info; being a total function, the
adapter never raises to its caller. -/
theorem analyzer_failure_returns_fallback (enabled : Bool) (response : Option String)
    (jsonParse : String → Option Val)
    (h : enabled = false ∨ response = Option.none ∨
         ∃ t, response = some t ∧ jsonParse (cleanResponse t) = Option.none) :
    analyze_contract enabled response jsonParse = get_fallback_data ∧
    (∀ k ∈ ["parties", "financial_details", "payment_terms", "revenue_classification",
            "sla", "important_dates", "key_terms", "risk_factors", "compliance_issues",
            "contract_type", "confidence_scores", "summary"],
       Val.hasKey get_fallback_data k = true) ∧
    Val.hasKey get_fallback_data "account_info" = false := by
  refine ⟨?_, by decide, rfl⟩
  rcases h with h | h | ⟨t, ht, hp⟩
  · simp [analyze_contract, h]
  · cases enabled <;> simp [analyze_contract, h]
  · subst ht
    cases enabled <;> simp [analyze_contract, parse_ai_response, hp]

/-- Witness for C3's amended theorem in the disabled-credential mode. -/
theorem analyzer_failure_returns_fallback_witness :
    analyze_contract false Option.none (fun _ => Option.none) = get_fallback_data ∧
    (∀ k ∈ ["parties", "financial_details", "payment_terms", "revenue_classification",
            "sla", "important_dates", "key_terms", "risk_factors", "compliance_issues",
            "contract_type", "confidence_scores", "summary"],
       Val.hasKey get_fallback_data k = true) ∧
    Val.hasKey get_fallback_data "account_info" = false :=
  analyzer_failure_returns_fallback false Option.none (fun _ => Option.none) (Or.inl rfl)

/- ----------------------------------------------------------------------
   C8 (counterexample).  A malformed category value breaks the
   weighted-sum reading while the engine still returns without raising.
   ---------------------------------------------------------------------- -/

/-- C8 (counterexample): on an input whose financial_details value has the
wrong shape (an int), the financial component raises inside the engine (so the
five component scores do not all exist), the party component would be 40, and
the engine returns overall 0.0 with a "Scoring error" gap — not the weighted
sum, which would be at least 40·25/100 = 10. -/
theorem malformed_input_breaks_weighted_sum :
    calcFinancialScore c8BadInput = .error "AttributeError" ∧
    calcPartyScore c8BadInput = .ok 40 ∧
    calculate_score c8BadInput = (0, ["Scoring error: AttributeError"]) ∧
    (0 : ℚ) ≠ ((0 : ℚ) * 30 + (40 : ℚ) * 25 + 0 * 20 + 0 * 15 + 0 * 10) / 100 :=
  ⟨rfl, rfl, rfl, by norm_num⟩

/- ----------------------------------------------------------------------
   Chunker lemmas
   ---------------------------------------------------------------------- -/

lemma splitLoop_stop (text : List Char) (cs ov fuel start : Nat)
    (h1 : start < text.length) (h2 : text.length ≤ chunkEnd text cs start - ov) :
    splitLoop text cs ov (fuel + 1) start =
      some [(text.drop start).take (chunkEnd text cs start - start)] := by
  simp [splitLoop, h1, h2]

lemma splitLoop_step (text : List Char) (cs ov fuel start : Nat)
    (h1 : start < text.length) (h2 : ¬ text.length ≤ chunkEnd text cs start - ov) :
    splitLoop text cs ov (fuel + 1) start =
      match splitLoop text cs ov fuel (chunkEnd text cs start - ov) with
      | some rest => some ((text.drop start).take (chunkEnd text cs start - start) :: rest)
      | Option.none => Option.none := by
  simp [splitLoop, h1, h2]

lemma findBoundary_bounds (text : List Char) (lo : Nat) :
    ∀ i j, findBoundary text lo i = some j → lo < j ∧ j ≤ i := by
  intro i
  induction i with
  | zero => intro j h; simp [findBoundary] at h
  | succ n ih =>
      intro j h
      rw [findBoundary] at h
      by_cases h1 : n + 1 ≤ lo
      · rw [if_pos h1] at h
        exact absurd h (by simp)
      · rw [if_neg h1] at h
        by_cases h2 : isSentenceEnd (text.getD (n + 1) ' ') = true
        · rw [if_pos h2] at h
          have hj : n + 1 = j := by injection h
          omega
        · rw [if_neg h2] at h
          have := ih j h
          omega

lemma chunkEnd_lower (text : List Char) (cs ov start : Nat) (h : ov + 200 ≤ cs) :
    start + ov + 2 ≤ chunkEnd text cs start := by
  unfold chunkEnd
  by_cases he : start + cs < text.length
  · rw [if_pos he]
    cases hfb : findBoundary text (max (start + cs - 200) start) (start + cs) with
    | none =>
        show start + ov + 2 ≤ start + cs
        omega
    | some j =>
        show start + ov + 2 ≤ j + 1
        have hb := findBoundary_bounds text (max (start + cs - 200) start) (start + cs) j hfb
        have hmax : start + cs - 200 ≤ max (start + cs - 200) start := le_max_left _ _
        omega
  · rw [if_neg he]
    omega

lemma span_split (text : List Char) (cs ov : Nat) : ∀ fuel start,
    splitLoop text cs ov fuel start =
      (spanLoop text cs ov fuel start).map
        (List.map fun se => (text.drop se.1).take (se.2 - se.1)) := by
  intro fuel
  induction fuel with
  | zero => intro start; rfl
  | succ n ih =>
      intro start
      by_cases h1 : start < text.length
      · by_cases h2 : text.length ≤ chunkEnd text cs start - ov
        · simp [splitLoop, spanLoop, h1, h2]
        · simp only [splitLoop, spanLoop, h1, if_true, h2, if_false, ih]
          cases spanLoop text cs ov n (chunkEnd text cs start - ov) <;> simp
      · simp [splitLoop, spanLoop, h1]

lemma span_cover (text : List Char) (cs ov : Nat) : ∀ fuel start spans,
    spanLoop text cs ov fuel start = some spans →
    ∀ p, start ≤ p → p < text.length → ∃ se ∈ spans, se.1 ≤ p ∧ p < se.2 := by
  intro fuel
  induction fuel with
  | zero => intro start spans h; simp [spanLoop] at h
  | succ n ih =>
      intro start spans h p hsp hp
      have h1 : start < text.length := lt_of_le_of_lt hsp hp
      by_cases h2 : text.length ≤ chunkEnd text cs start - ov
      · simp [spanLoop, h1, h2] at h
        subst h
        refine ⟨(start, chunkEnd text cs start), by simp, hsp, by omega⟩
      · simp only [spanLoop, h1, if_true, h2, if_false] at h
        cases hrec : spanLoop text cs ov n (chunkEnd text cs start - ov) with
        | none => rw [hrec] at h; simp at h
        | some rest =>
            rw [hrec] at h
            simp at h
            subst h
            by_cases hpe : p < chunkEnd text cs start
            · exact ⟨(start, chunkEnd text cs start), by simp, hsp, hpe⟩
            · obtain ⟨se, hm, hle, hlt⟩ := ih _ _ hrec p (by omega) hp
              exact ⟨se, by simp [hm], hle, hlt⟩

lemma span_term (text : List Char) (cs ov : Nat) (hcs : ov + 200 ≤ cs) :
    ∀ fuel start, start < text.length → text.length ≤ start + fuel →
    ∃ spans, spanLoop text cs ov fuel start = some spans := by
  intro fuel
  induction fuel with
  | zero => intro start hr h2; omega
  | succ n ih =>
      intro start h1 h2
      have hprog := chunkEnd_lower text cs ov start hcs
      by_cases h3 : text.length ≤ chunkEnd text cs start - ov
      · exact ⟨[(start, chunkEnd text cs start)], by simp [spanLoop, h1, h3]⟩
      · obtain ⟨rest, hrest⟩ := ih (chunkEnd text cs start - ov) (by omega) (by omega)
        exact ⟨(start, chunkEnd text cs start) :: rest, by simp [spanLoop, h1, h3, hrest]⟩

/-- The naive end is kept whenever it does not lie strictly inside the text. -/
lemma chunkEnd_of_ge (text : List Char) (cs start : Nat) (h : text.length ≤ start + cs) :
    chunkEnd text cs start = start + cs := by
  unfold chunkEnd
  rw [if_neg (by omega)]

/-- Two chunks are produced whenever the text length lies strictly between
chunk_size − overlap and chunk_size: the second iteration starts at
chunk_size − overlap, which is still inside the text. -/
lemma two_chunks (text : List Char) (h1 : 7000 < text.length) (h2 : text.length < 8000) :
    split_text_into_chunks text = some [text, text.drop 7000] := by
  have hc : chunk_size = 8000 := rfl
  have ho : overlap = 1000 := rfl
  have hce1 : chunkEnd text chunk_size 0 = 8000 := by
    rw [chunkEnd_of_ge text chunk_size 0 (by rw [hc]; omega)]
    rw [hc]
  have hce2 : chunkEnd text chunk_size 7000 = 15000 := by
    rw [chunkEnd_of_ge text chunk_size 7000 (by rw [hc]; omega)]
    rw [hc]
  have hov : (8000 : ℕ) - overlap = 7000 := by rw [ho]
  unfold split_text_into_chunks
  rw [splitLoop_step text chunk_size overlap text.length 0 (by omega)
        (by rw [hce1, hov]; omega)]
  rw [hce1, hov]
  obtain ⟨m, hm⟩ : ∃ m, text.length = m + 1 := ⟨text.length - 1, by omega⟩
  rw [hm]
  rw [splitLoop_stop text chunk_size overlap m 7000 (by omega)
        (by rw [hce2, ho]; omega)]
  rw [hce2]
  simp
  omega

/- ----------------------------------------------------------------------
   C2.  Chunking texts shorter than chunk_size.
   ---------------------------------------------------------------------- -/

/-- C2 (counterexample): a 7500-character text is shorter than chunk_size
(8000) yet the chunker returns two chunks, because the advancing start index
moves to 8000 − 1000 = 7000, which is still inside the text. -/
theorem chunker_two_chunks_below_chunk_size :
    (List.replicate 7500 'a').length < chunk_size ∧
    List.replicate 7500 'a' ≠ ([] : List Char) ∧
    split_text_into_chunks (List.replicate 7500 'a') =
      some [List.replicate 7500 'a', List.replicate 500 'a'] := by
  have hlen : (List.replicate 7500 'a').length = 7500 := by rw [List.length_replicate]
  refine ⟨?_, ?_, ?_⟩
  · rw [hlen, show chunk_size = 8000 from rfl]
    omega
  · intro hcontra
    have hl := congrArg List.length hcontra
    rw [hlen, List.length_nil] at hl
    exact absurd hl (by decide)
  · rw [two_chunks (List.replicate 7500 'a') (by rw [hlen]; omega) (by rw [hlen]; omega)]
    rw [List.drop_replicate]

/-- C2 (amended): every non-empty text of length at most chunk_size − overlap
(8000 − 1000 = 7000) yields exactly one chunk, the whole text. -/
theorem single_chunk_when_text_fits (text : List Char) (h1 : text ≠ [])
    (h2 : text.length + overlap ≤ chunk_size) :
    split_text_into_chunks text = some [text] := by
  have hc : chunk_size = 8000 := rfl
  have ho : overlap = 1000 := rfl
  rw [hc, ho] at h2
  have hlen : 0 < text.length := List.length_pos.mpr h1
  have hce : chunkEnd text chunk_size 0 = 8000 := by
    rw [chunkEnd_of_ge text chunk_size 0 (by rw [hc]; omega)]
    rw [hc]
  unfold split_text_into_chunks
  rw [splitLoop_stop text chunk_size overlap text.length 0 hlen
        (by rw [hce, ho]; omega)]
  rw [hce]
  simp
  omega

/-- Witness for C2's amended theorem on the three-character text "Hi.". -/
theorem single_chunk_when_text_fits_witness :
    split_text_into_chunks ['H', 'i', '.'] = some [['H', 'i', '.']] :=
  single_chunk_when_text_fits ['H', 'i', '.'] (by decide) (by decide)

/- ----------------------------------------------------------------------
   C9.  Termination and coverage of the chunking loop.
   ---------------------------------------------------------------------- -/

/-- C9 (counterexample): with chunk_size 5 and overlap 3 (a pair satisfying
0 < overlap < chunk_size) on the text "ab.cdefghij", the sentence-boundary
backtrack pins the end at index 3, so the next start is 3 − 3 = 0 and the loop
never advances: no amount of fuel makes the loop model finish. -/
theorem chunk_loop_nonterminating :
    (0 < 3 ∧ 3 < 5) ∧ ∀ fuel, splitLoop c9Text 5 3 fuel 0 = Option.none := by
  refine ⟨by norm_num, ?_⟩
  intro fuel
  induction fuel with
  | zero => rfl
  | succ n ih =>
      have hce : chunkEnd c9Text 5 0 = 3 := rfl
      have hlen : c9Text.length = 11 := rfl
      rw [splitLoop_step c9Text 5 3 n 0 (by rw [hlen]; omega)
            (by rw [hce, hlen]; omega)]
      rw [hce]
      simp [ih]

/-- C9 (amended): for every text and every parameter pair with 0 < overlap and
overlap + 200 ≤ chunk_size (as with the code's 8000/1000), the chunking loop
terminates within length + 1 iterations, the chunks are the slices of the
produced spans, and the spans cover every position of the text with no gap. -/
theorem chunk_loop_terminates_and_covers (text : List Char) (cs ov : Nat)
    (h1 : 0 < ov) (h2 : ov + 200 ≤ cs) :
    ∃ spans, spanLoop text cs ov (text.length + 1) 0 = some spans ∧
      splitLoop text cs ov (text.length + 1) 0 =
        some (spans.map fun se => (text.drop se.1).take (se.2 - se.1)) ∧
      ∀ p, p < text.length → ∃ se ∈ spans, se.1 ≤ p ∧ p < se.2 := by
  by_cases h0 : text.length = 0
  · refine ⟨[], ?_, ?_, ?_⟩
    · simp [spanLoop, h0]
    · simp [splitLoop, h0]
    · intro p hp; omega
  · obtain ⟨spans, hs⟩ := span_term text cs ov h2 (text.length + 1) 0 (by omega) (by omega)
    refine ⟨spans, hs, ?_, ?_⟩
    · rw [span_split, hs]
      rfl
    · intro p hp
      exact span_cover text cs ov _ _ _ hs p (Nat.zero_le p) hp

/-- Witness for C9's amended theorem: the code's chunk_size 8000 and overlap
1000 on the text "ab.cdefghij". -/
theorem chunk_loop_terminates_and_covers_witness :
    (0 < 1000 ∧ 1000 + 200 ≤ 8000) ∧
    (∃ spans, spanLoop c9Text 8000 1000 (c9Text.length + 1) 0 = some spans ∧
      splitLoop c9Text 8000 1000 (c9Text.length + 1) 0 =
        some (spans.map fun se => (c9Text.drop se.1).take (se.2 - se.1)) ∧
      ∀ p, p < c9Text.length → ∃ se ∈ spans, se.1 ≤ p ∧ p < se.2) :=
  ⟨by norm_num, chunk_loop_terminates_and_covers c9Text 8000 1000 (by norm_num) (by norm_num)⟩

/- ----------------------------------------------------------------------
   Merge-engine lemmas
   ---------------------------------------------------------------------- -/

lemma oOr_none_right (a : Option Val) : oOr a Option.none = a := by
  cases a <;> rfl

lemma oOr_assoc (a b c : Option Val) : oOr (oOr a b) c = oOr a (oOr b c) := by
  cases a <;> rfl

lemma alook_dictSet (d : List (String × Val)) (k : String) (v : Val) (k' : String) :
    alook (dictSet d k v) k' = if k = k' then some v else alook d k' := by
  induction d with
  | nil => by_cases h : k = k' <;> simp [dictSet, alook, h]
  | cons hd tl ih =>
      obtain ⟨k0, v0⟩ := hd
      by_cases h0 : k0 = k
      · subst h0
        by_cases h' : k0 = k' <;> simp [dictSet, alook, h']
      · by_cases h' : k0 = k'
        · subst h'
          have hne : k ≠ k0 := fun h => h0 h.symm
          simp [dictSet, h0, alook, hne]
        · simp [dictSet, h0, alook, h', ih]

lemma firstTruthyItems_append (l1 l2 : List (String × Val)) (k : String) :
    firstTruthyItems (l1 ++ l2) k =
      oOr (firstTruthyItems l1 k) (firstTruthyItems l2 k) := by
  induction l1 with
  | nil => simp [firstTruthyItems, oOr]
  | cons hd tl ih =>
      obtain ⟨k0, v0⟩ := hd
      by_cases h : k0 = k ∧ v0.truthy = true
      · simp [firstTruthyItems, h, oOr]
      · simp [firstTruthyItems, h, ih]

lemma mergeSectionItems_alook : ∀ (items combined : List (String × Val)),
    AllTruthyD combined →
    (∀ k, alook (mergeSectionItems combined items) k =
        oOr (alook combined k) (firstTruthyItems items k)) ∧
    AllTruthyD (mergeSectionItems combined items) := by
  intro items
  induction items with
  | nil =>
      intro combined h
      exact ⟨fun k => by simp [mergeSectionItems, firstTruthyItems, oOr_none_right], h⟩
  | cons hd rest ih =>
      obtain ⟨k0, v0⟩ := hd
      intro combined hc
      by_cases hkeep : (v0.truthy &&
          (match alook combined k0 with
           | some w => !w.truthy
           | Option.none => true)) = true
      · have hsplit := hkeep
        rw [Bool.and_eq_true] at hsplit
        have hv0 : v0.truthy = true := hsplit.1
        have hnone : alook combined k0 = Option.none := by
          rcases halook : alook combined k0 with _ | w
          · rfl
          · exfalso
            have hw := hc k0 w halook
            have hrest := hsplit.2
            rw [halook] at hrest
            simp [hw] at hrest
        have hstep : mergeSectionItems combined ((k0, v0) :: rest) =
            mergeSectionItems (dictSet combined k0 v0) rest := by
          simp [mergeSectionItems, hkeep]
        have hc' : AllTruthyD (dictSet combined k0 v0) := by
          intro k v hkv
          rw [alook_dictSet] at hkv
          by_cases hk : k0 = k
          · rw [if_pos hk] at hkv
            cases hkv
            exact hv0
          · rw [if_neg hk] at hkv
            exact hc k v hkv
        obtain ⟨ihl, ihd⟩ := ih (dictSet combined k0 v0) hc'
        refine ⟨fun k => ?_, hstep ▸ ihd⟩
        rw [hstep, ihl k, alook_dictSet]
        by_cases hk : k0 = k
        · subst hk
          simp [firstTruthyItems, hv0, hnone, oOr]
        · simp [firstTruthyItems, hk]
      · have hstep : mergeSectionItems combined ((k0, v0) :: rest) =
            mergeSectionItems combined rest := by
          simp [mergeSectionItems, hkeep]
        obtain ⟨ihl, ihd⟩ := ih combined hc
        refine ⟨fun k => ?_, hstep ▸ ihd⟩
        rw [hstep, ihl k]
        by_cases hk : k0 = k
        · subst hk
          by_cases hv0 : v0.truthy = true
          · rcases halook : alook combined k0 with _ | w
            · exfalso
              apply hkeep
              rw [halook] at hkeep ⊢
              simp [hv0]
            · simp [halook, oOr, firstTruthyItems, hv0]
          · simp [firstTruthyItems, hv0]
        · simp [firstTruthyItems, hk]

lemma mergeSection_char (sec : String) : ∀ (as : List Val) (acc : List (String × Val)),
    (∀ a ∈ as, ∃ xs, a = Val.dict xs ∧ optSecB (alook xs sec) = true) →
    AllTruthyD acc →
    ∃ d, mergeSection sec acc as = .ok d ∧ AllTruthyD d ∧
      ∀ k, alook d k = oOr (alook acc k) (firstTruthyItems (flatSection as sec) k) := by
  intro as
  induction as with
  | nil =>
      intro acc hwf hacc
      exact ⟨acc, rfl, hacc,
        fun k => by simp [flatSection, firstTruthyItems, oOr_none_right]⟩
  | cons a rest ih =>
      intro acc hwf hacc
      obtain ⟨xs, rfl, hsec⟩ := hwf a (by simp)
      cases halook : alook xs sec with
      | none =>
          have hstep : mergeSection sec acc (Val.dict xs :: rest) =
              mergeSection sec acc rest := by
            simp [mergeSection, Val.contains1, halook]
          obtain ⟨d, hd, hdt, hdl⟩ := ih acc (fun a ha => hwf a (by simp [ha])) hacc
          refine ⟨d, hstep ▸ hd, hdt, fun k => ?_⟩
          rw [hdl k]
          simp [flatSection, sectionItemsOf, halook]
      | some v =>
          cases v with
          | dict ys =>
              have hstep : mergeSection sec acc (Val.dict xs :: rest) =
                  mergeSection sec (mergeSectionItems acc ys) rest := by
                simp [mergeSection, Val.contains1, Val.sub, Val.items, halook]
              obtain ⟨hml, hmt⟩ := mergeSectionItems_alook ys acc hacc
              obtain ⟨d, hd, hdt, hdl⟩ :=
                ih (mergeSectionItems acc ys) (fun a ha => hwf a (by simp [ha])) hmt
              refine ⟨d, hstep ▸ hd, hdt, fun k => ?_⟩
              rw [hdl k, hml k]
              simp only [flatSection, sectionItemsOf, halook]
              rw [firstTruthyItems_append, oOr_assoc]
          | null => rw [halook] at hsec; simp [optSecB] at hsec
          | bool b => rw [halook] at hsec; simp [optSecB] at hsec
          | num q => rw [halook] at hsec; simp [optSecB] at hsec
          | str s => rw [halook] at hsec; simp [optSecB] at hsec
          | list l => rw [halook] at hsec; simp [optSecB] at hsec

/- ----------------------------------------------------------------------
   Destructuring a well-formed analysis
   ---------------------------------------------------------------------- -/

lemma wf_dict (a : Val) (h : wfAnalysisB a = true) : ∃ xs, a = Val.dict xs := by
  cases a <;> simp [wfAnalysisB] at h ⊢

lemma wf_split (xs : List (String × Val)) (h : wfAnalysisB (Val.dict xs) = true) :
    (match alook xs "parties" with
     | Option.none => true
     | some (.list ps) => ps.all wfPartyB
     | some _ => false) = true ∧
    optSecB (alook xs "financial_details") = true ∧
    optSecB (alook xs "payment_terms") = true ∧
    optSecB (alook xs "sla") = true ∧
    optSecB (alook xs "contract_dates") = true ∧
    optListB (alook xs "key_terms") = true ∧
    optListB (alook xs "risk_factors") = true ∧
    optListB (alook xs "compliance_issues") = true ∧
    confB (alook xs "confidence_scores") = true := by
  rw [wfAnalysisB] at h
  repeat rw [Bool.and_eq_true] at h
  exact ⟨h.1.1.1.1.1.1.1.1, h.1.1.1.1.1.1.1.2, h.1.1.1.1.1.1.2, h.1.1.1.1.1.2,
         h.1.1.1.1.2, h.1.1.1.2, h.1.1.2, h.1.2, h.2⟩

lemma wf_parties (xs : List (String × Val)) (h : wfAnalysisB (Val.dict xs) = true) :
    alook xs "parties" = Option.none ∨
    ∃ ps, alook xs "parties" = some (.list ps) ∧ ∀ p ∈ ps, wfPartyB p = true := by
  have hp := (wf_split xs h).1
  cases halook : alook xs "parties" with
  | none => exact Or.inl rfl
  | some v =>
      rw [halook] at hp
      cases v with
      | list ps =>
          refine Or.inr ⟨ps, rfl, ?_⟩
          intro p hmem
          exact List.all_eq_true.mp hp p hmem
      | null => simp at hp
      | bool b => simp at hp
      | num q => simp at hp
      | str s => simp at hp
      | dict d => simp at hp

lemma wf_listkey (xs : List (String × Val)) (k : String) (h : optListB (alook xs k) = true) :
    alook xs k = Option.none ∨ ∃ l, alook xs k = some (.list l) := by
  cases halook : alook xs k with
  | none => exact Or.inl rfl
  | some v =>
      rw [halook] at h
      cases v with
      | list l => exact Or.inr ⟨l, rfl⟩
      | null => simp [optListB] at h
      | bool b => simp [optListB] at h
      | num q => simp [optListB] at h
      | str s => simp [optListB] at h
      | dict d => simp [optListB] at h

/- ----------------------------------------------------------------------
   Party-merge lemmas
   ---------------------------------------------------------------------- -/

lemma strLower_empty : strLower "" = "" := rfl

lemma partyKeyOf_wf (p : Val) (h : wfPartyB p = true) :
    partyKeyOf p = .ok (lowerName p) := by
  cases p with
  | dict ys =>
      cases halook : alook ys "name" with
      | none => simp [partyKeyOf, Val.getDef, halook, lowerName, strLower_empty]
      | some v =>
          rw [wfPartyB, halook] at h
          cases v with
          | str s => simp [partyKeyOf, Val.getDef, halook, lowerName]
          | null => simp at h
          | bool b => simp at h
          | num q => simp at h
          | list l => simp at h
          | dict d => simp at h
  | null => simp [wfPartyB] at h
  | bool b => simp [wfPartyB] at h
  | num q => simp [wfPartyB] at h
  | str s => simp [wfPartyB] at h
  | list l => simp [wfPartyB] at h

lemma partiesFold_eq : ∀ (ps : List Val) (out : List Val) (seen : List String),
    (∀ p ∈ ps, wfPartyB p = true) →
    partiesFold (out, seen) ps = .ok (dedupeGo (out, seen) ps) := by
  intro ps
  induction ps with
  | nil => intro out seen hwf; rfl
  | cons p rest ih =>
      intro out seen hwf
      have hk := partyKeyOf_wf p (hwf p (by simp))
      have hrest : ∀ q ∈ rest, wfPartyB q = true := fun q hq => hwf q (by simp [hq])
      simp only [partiesFold, dedupeGo, hk, exBind_ok]
      by_cases hcond : (!(lowerName p).isEmpty && !seen.contains (lowerName p)) = true
      · rw [if_pos hcond, if_pos hcond]
        exact ih _ _ hrest
      · rw [if_neg hcond, if_neg hcond]
        exact ih _ _ hrest

lemma dedupeGo_append : ∀ (ps qs : List Val) (acc : List Val × List String),
    dedupeGo acc (ps ++ qs) = dedupeGo (dedupeGo acc ps) qs := by
  intro ps
  induction ps with
  | nil => intro qs acc; rfl
  | cons p rest ih =>
      intro qs acc
      obtain ⟨out, seen⟩ := acc
      rw [List.cons_append]
      simp only [dedupeGo]
      by_cases hcond : (!(lowerName p).isEmpty && !seen.contains (lowerName p)) = true
      · rw [if_pos hcond, if_pos hcond]
        exact ih qs _
      · rw [if_neg hcond, if_neg hcond]
        exact ih qs _

lemma combinePartiesLoop_eq : ∀ (as : List Val) (acc : List Val × List String),
    (∀ a ∈ as, wfAnalysisB a = true) →
    combinePartiesLoop acc as = .ok (dedupeGo acc (flatParties as)) := by
  intro as
  induction as with
  | nil => intro acc hwf; rfl
  | cons a rest ih =>
      intro acc hwf
      obtain ⟨xs, rfl⟩ := wf_dict a (hwf a (by simp))
      have hrest : ∀ a ∈ rest, wfAnalysisB a = true := fun a ha => hwf a (by simp [ha])
      rcases wf_parties xs (hwf _ (by simp)) with hnone | ⟨ps, hps, hpw⟩
      · simp [combinePartiesLoop, Val.contains1, hnone, flatParties, partiesOf,
              ih acc hrest]
      · obtain ⟨out, seen⟩ := acc
        simp [combinePartiesLoop, Val.contains1, Val.sub, Val.iter, hps,
              partiesFold_eq ps out seen hpw, flatParties, partiesOf, dedupeGo_append,
              ih _ hrest]

/- ----------------------------------------------------------------------
   Properties of the party deduplication fold
   ---------------------------------------------------------------------- -/

lemma dedupe_cond (s : String) (seen : List String) :
    ((!s.isEmpty && !seen.contains s) = true) ↔ (s ≠ "" ∧ s ∉ seen) := by
  simp [← String.isEmpty_iff s]

lemma dedupeGo_decomp : ∀ (ps out : List Val) (seen : List String),
    ∃ q, (dedupeGo (out, seen) ps).1 = out ++ q ∧ q.Sublist ps := by
  intro ps
  induction ps with
  | nil => intro out seen; exact ⟨[], by simp [dedupeGo], List.nil_sublist _⟩
  | cons p rest ih =>
      intro out seen
      simp only [dedupeGo]
      by_cases hcond : (lowerName p ≠ "" ∧ lowerName p ∉ seen)
      · rw [if_pos ((dedupe_cond _ _).mpr hcond)]
        obtain ⟨q, hq, hsub⟩ := ih (out ++ [p]) (seen ++ [lowerName p])
        exact ⟨p :: q, by rw [hq]; simp, List.Sublist.cons₂ p hsub⟩
      · rw [if_neg (fun h => hcond ((dedupe_cond _ _).mp h))]
        obtain ⟨q, hq, hsub⟩ := ih out seen
        exact ⟨q, hq, List.Sublist.cons p hsub⟩

lemma dedupeGo_names : ∀ (ps out : List Val) (seen : List String),
    (∀ p ∈ out, lowerName p ≠ "") →
    ∀ p ∈ (dedupeGo (out, seen) ps).1, lowerName p ≠ "" := by
  intro ps
  induction ps with
  | nil => intro out seen hout; simpa [dedupeGo] using hout
  | cons p rest ih =>
      intro out seen hout
      simp only [dedupeGo]
      by_cases hcond : (lowerName p ≠ "" ∧ lowerName p ∉ seen)
      · rw [if_pos ((dedupe_cond _ _).mpr hcond)]
        refine ih (out ++ [p]) _ ?_
        intro x hx
        rcases List.mem_append.mp hx with h | h
        · exact hout x h
        · rw [List.mem_singleton] at h
          subst h
          exact hcond.1
      · rw [if_neg (fun h => hcond ((dedupe_cond _ _).mp h))]
        exact ih out seen hout

lemma count_cond (seen : List String) (ps : List Val) (n : String) :
    ((seen.contains n || ps.all fun p => !(lowerName p == n)) = true) ↔
      (n ∈ seen ∨ ∀ p ∈ ps, lowerName p ≠ n) := by
  simp

lemma dedupeGo_count : ∀ (ps out : List Val) (seen : List String) (n : String), n ≠ "" →
    List.countP (fun p => lowerName p == n) (dedupeGo (out, seen) ps).1 =
      List.countP (fun p => lowerName p == n) out +
        (if seen.contains n || ps.all (fun p => !(lowerName p == n)) then 0 else 1) := by
  intro ps
  induction ps with
  | nil =>
      intro out seen n hn
      rw [if_pos ((count_cond seen [] n).mpr (Or.inr (by simp)))]
      simp [dedupeGo]
  | cons p rest ih =>
      intro out seen n hn
      simp only [dedupeGo]
      by_cases hcond : (lowerName p ≠ "" ∧ lowerName p ∉ seen)
      · rw [if_pos ((dedupe_cond _ _).mpr hcond)]
        rw [ih (out ++ [p]) (seen ++ [lowerName p]) n hn, List.countP_append]
        by_cases hnm : lowerName p = n
        · have hp1 : List.countP (fun q => lowerName q == n) [p] = 1 := by
            simp [hnm]
          rw [hp1]
          have hmem : n ∈ seen ++ [lowerName p] := by simp [hnm]
          rw [if_pos ((count_cond _ _ _).mpr (Or.inl hmem))]
          have hnot : ¬ (n ∈ seen ∨ ∀ q ∈ p :: rest, lowerName q ≠ n) := by
            rintro (h | h)
            · exact hcond.2 (hnm ▸ h)
            · exact h p (by simp) hnm
          rw [if_neg (fun h => hnot ((count_cond _ _ _).mp h))]
        · have hp0 : List.countP (fun q => lowerName q == n) [p] = 0 := by
            simp [hnm]
          rw [hp0]
          have e1 : (n ∈ seen ++ [lowerName p]) ↔ n ∈ seen := by
            simp only [List.mem_append, List.mem_singleton]
            exact or_iff_left (fun h => hnm h.symm)
          have e2 : (∀ q ∈ p :: rest, lowerName q ≠ n) ↔ (∀ q ∈ rest, lowerName q ≠ n) := by
            constructor
            · intro h q hq; exact h q (List.mem_cons_of_mem _ hq)
            · intro h q hq
              rcases List.mem_cons.mp hq with rfl | hq'
              · exact hnm
              · exact h q hq'
          rcases Classical.em (n ∈ seen ∨ ∀ q ∈ rest, lowerName q ≠ n) with hC | hC
          · have hC1 : n ∈ seen ++ [lowerName p] ∨ ∀ q ∈ rest, lowerName q ≠ n := by
              rcases hC with h | h
              · exact Or.inl (e1.mpr h)
              · exact Or.inr h
            have hC2 : n ∈ seen ∨ ∀ q ∈ p :: rest, lowerName q ≠ n := by
              rcases hC with h | h
              · exact Or.inl h
              · exact Or.inr (e2.mpr h)
            rw [if_pos ((count_cond _ _ _).mpr hC1), if_pos ((count_cond _ _ _).mpr hC2)]
          · have hC1 : ¬ (n ∈ seen ++ [lowerName p] ∨ ∀ q ∈ rest, lowerName q ≠ n) := by
              rintro (h | h)
              · exact hC (Or.inl (e1.mp h))
              · exact hC (Or.inr h)
            have hC2 : ¬ (n ∈ seen ∨ ∀ q ∈ p :: rest, lowerName q ≠ n) := by
              rintro (h | h)
              · exact hC (Or.inl h)
              · exact hC (Or.inr (e2.mp h))
            rw [if_neg (fun h => hC1 ((count_cond _ _ _).mp h)),
                if_neg (fun h => hC2 ((count_cond _ _ _).mp h))]
      · rw [if_neg (fun h => hcond ((dedupe_cond _ _).mp h))]
        rw [ih out seen n hn]
        by_cases hnm : lowerName p = n
        · have hpin : n ∈ seen := by
            rcases not_and_or.mp hcond with h | h
            · exact absurd (hnm ▸ not_not.mp h) hn
            · exact hnm ▸ not_not.mp h
          rw [if_pos ((count_cond _ _ _).mpr (Or.inl hpin)),
              if_pos ((count_cond _ _ _).mpr (Or.inl hpin))]
        · have e2 : (∀ q ∈ p :: rest, lowerName q ≠ n) ↔ (∀ q ∈ rest, lowerName q ≠ n) := by
            constructor
            · intro h q hq; exact h q (List.mem_cons_of_mem _ hq)
            · intro h q hq
              rcases List.mem_cons.mp hq with rfl | hq'
              · exact hnm
              · exact h q hq'
          rcases Classical.em (n ∈ seen ∨ ∀ q ∈ rest, lowerName q ≠ n) with hC | hC
          · have hC2 : n ∈ seen ∨ ∀ q ∈ p :: rest, lowerName q ≠ n := by
              rcases hC with h | h
              · exact Or.inl h
              · exact Or.inr (e2.mpr h)
            rw [if_pos ((count_cond _ _ _).mpr hC), if_pos ((count_cond _ _ _).mpr hC2)]
          · have hC2 : ¬ (n ∈ seen ∨ ∀ q ∈ p :: rest, lowerName q ≠ n) := by
              rintro (h | h)
              · exact hC (Or.inl h)
              · exact hC (Or.inr (e2.mp h))
            rw [if_neg (fun h => hC ((count_cond _ _ _).mp h)),
                if_neg (fun h => hC2 ((count_cond _ _ _).mp h))]

lemma dedupeGo_find : ∀ (ps out : List Val) (seen : List String) (n : String), n ≠ "" →
    n ∉ seen → (∀ p ∈ out, lowerName p ≠ n) →
    (dedupeGo (out, seen) ps).1.find? (fun p => lowerName p == n) =
      ps.find? (fun p => lowerName p == n) := by
  intro ps
  induction ps with
  | nil =>
      intro out seen n hn hns hout
      simp only [dedupeGo, List.find?_nil]
      exact List.find?_eq_none.mpr (fun x hx => by simp [hout x hx])
  | cons p rest ih =>
      intro out seen n hn hns hout
      simp only [dedupeGo]
      by_cases hcond : (lowerName p ≠ "" ∧ lowerName p ∉ seen)
      · rw [if_pos ((dedupe_cond _ _).mpr hcond)]
        by_cases hnm : lowerName p = n
        · obtain ⟨q, hq, _⟩ := dedupeGo_decomp rest (out ++ [p]) (seen ++ [lowerName p])
          rw [hq, List.find?_append, List.find?_append]
          have hout0 : out.find? (fun p => lowerName p == n) = Option.none :=
            List.find?_eq_none.mpr (fun x hx => by simp [hout x hx])
          have hp : (fun q => lowerName q == n) p = true := by simp [hnm]
          have h1 : List.find? (fun q => lowerName q == n) [p] = some p :=
            List.find?_cons_of_pos _ hp
          have h2 : List.find? (fun q => lowerName q == n) (p :: rest) = some p :=
            List.find?_cons_of_pos _ hp
          rw [hout0, h1, h2]
          rfl
        · have hns' : n ∉ seen ++ [lowerName p] := by
            simp only [List.mem_append, List.mem_singleton]
            rintro (h | h)
            · exact hns h
            · exact hnm h.symm
          have hout' : ∀ x ∈ out ++ [p], lowerName x ≠ n := by
            intro x hx
            rcases List.mem_append.mp hx with h | h
            · exact hout x h
            · rw [List.mem_singleton] at h
              subst h
              exact hnm
          rw [ih _ _ n hn hns' hout']
          rw [List.find?_cons_of_neg _ (by simp [hnm])]
      · have hnm : lowerName p ≠ n := by
          intro hEq
          rcases not_and_or.mp hcond with h | h
          · exact hn (hEq ▸ not_not.mp h)
          · exact hns (hEq ▸ not_not.mp h)
        rw [if_neg (fun h => hcond ((dedupe_cond _ _).mp h))]
        rw [ih out seen n hn hns hout]
        rw [List.find?_cons_of_neg _ (by simp [hnm])]

/- ----------------------------------------------------------------------
   List-category and confidence merge lemmas, and the merge assembly
   ---------------------------------------------------------------------- -/

lemma listsStep_ok (xs : List (String × Val)) (acc : List Val × List Val × List Val)
    (h : wfAnalysisB (Val.dict xs) = true) :
    ∃ r, listsStep acc (Val.dict xs) = .ok r := by
  have hw := wf_split xs h
  rcases wf_listkey xs "key_terms" hw.2.2.2.2.2.1 with h1 | ⟨l1, h1⟩ <;>
    rcases wf_listkey xs "risk_factors" hw.2.2.2.2.2.2.1 with h2 | ⟨l2, h2⟩ <;>
      rcases wf_listkey xs "compliance_issues" hw.2.2.2.2.2.2.2.1 with h3 | ⟨l3, h3⟩ <;>
        simp [listsStep, Val.contains1, Val.sub, Val.iter, h1, h2, h3]

lemma listsLoop_ok : ∀ (as : List Val) (acc : List Val × List Val × List Val),
    (∀ a ∈ as, wfAnalysisB a = true) → ∃ r, listsLoop acc as = .ok r := by
  intro as
  induction as with
  | nil => intro acc hwf; exact ⟨acc, rfl⟩
  | cons a rest ih =>
      intro acc hwf
      obtain ⟨xs, rfl⟩ := wf_dict a (hwf a (by simp))
      obtain ⟨r1, hr1⟩ := listsStep_ok xs acc (hwf _ (by simp))
      obtain ⟨r, hr⟩ := ih r1 (fun a ha => hwf a (by simp [ha]))
      exact ⟨r, by simp [listsLoop, hr1, hr]⟩

lemma collectConf_ok : ∀ (as : List Val), (∀ a ∈ as, wfAnalysisB a = true) →
    ∃ vs, collectConf as = .ok vs ∧
      ∀ v ∈ vs, (∃ q, v = Val.num q) ∨ (∃ b, v = Val.bool b) := by
  intro as
  induction as with
  | nil => exact fun _ => ⟨[], rfl, by simp⟩
  | cons a rest ih =>
      intro hwf
      obtain ⟨xs, rfl⟩ := wf_dict a (hwf a (by simp))
      have hconf := (wf_split xs (hwf _ (by simp))).2.2.2.2.2.2.2.2
      obtain ⟨vs, hvs, hnum⟩ := ih (fun a ha => hwf a (by simp [ha]))
      cases halook : alook xs "confidence_scores" with
      | none => exact ⟨vs, by simp [collectConf, Val.contains1, halook, hvs], hnum⟩
      | some v =>
          rw [halook] at hconf
          cases v with
          | dict cs =>
              cases hov : alook cs "overall" with
              | none =>
                  exact ⟨vs,
                    by simp [collectConf, Val.contains1, Val.sub, halook, hov, hvs], hnum⟩
              | some w =>
                  rw [confB, hov] at hconf
                  cases w with
                  | num q =>
                      refine ⟨Val.num q :: vs,
                        by simp [collectConf, Val.contains1, Val.sub, halook, hov, hvs], ?_⟩
                      intro v hv
                      rcases List.mem_cons.mp hv with rfl | hv'
                      · exact Or.inl ⟨q, rfl⟩
                      · exact hnum v hv'
                  | bool b =>
                      refine ⟨Val.bool b :: vs,
                        by simp [collectConf, Val.contains1, Val.sub, halook, hov, hvs], ?_⟩
                      intro v hv
                      rcases List.mem_cons.mp hv with rfl | hv'
                      · exact Or.inr ⟨b, rfl⟩
                      · exact hnum v hv'
                  | null => simp at hconf
                  | str s => simp at hconf
                  | list l => simp at hconf
                  | dict d => simp at hconf
          | null => simp [confB] at hconf
          | bool b => simp [confB] at hconf
          | num q => simp [confB] at hconf
          | str s => simp [confB] at hconf
          | list l => simp [confB] at hconf

lemma sumConf_ok : ∀ (vs : List Val),
    (∀ v ∈ vs, (∃ q, v = Val.num q) ∨ (∃ b, v = Val.bool b)) →
    ∃ s, sumConf vs = .ok s := by
  intro vs
  induction vs with
  | nil => exact fun _ => ⟨0, rfl⟩
  | cons v rest ih =>
      intro h
      obtain ⟨s, hs⟩ := ih (fun w hw => h w (by simp [hw]))
      rcases h v (by simp) with ⟨q, rfl⟩ | ⟨b, rfl⟩
      · exact ⟨q + s, by simp [sumConf, hs]⟩
      · exact ⟨(if b then 1 else 0) + s, by simp [sumConf, hs]⟩

lemma combine_ok (as : List Val) (h : ∀ a ∈ as, wfAnalysisB a = true) :
    ∃ parties fin pay sl dt kt rf ci q,
      combine_analyses as = .ok (combinedDict parties fin pay sl dt kt rf ci q) ∧
      parties = (dedupeGo ([], []) (flatParties as)).1 ∧
      (∀ k, alook fin k = firstTruthyItems (flatSection as "financial_details") k) ∧
      (∀ k, alook pay k = firstTruthyItems (flatSection as "payment_terms") k) ∧
      (∀ k, alook sl k = firstTruthyItems (flatSection as "sla") k) ∧
      (∀ k, alook dt k = firstTruthyItems (flatSection as "contract_dates") k) := by
  have hsecwf : ∀ sec : String,
      (sec = "financial_details" ∨ sec = "payment_terms" ∨ sec = "sla" ∨
       sec = "contract_dates") →
      ∀ a ∈ as, ∃ xs, a = Val.dict xs ∧ optSecB (alook xs sec) = true := by
    intro sec hsec a ha
    obtain ⟨xs, rfl⟩ := wf_dict a (h a ha)
    have hw := wf_split xs (h _ ha)
    rcases hsec with rfl | rfl | rfl | rfl
    · exact ⟨xs, rfl, hw.2.1⟩
    · exact ⟨xs, rfl, hw.2.2.1⟩
    · exact ⟨xs, rfl, hw.2.2.2.1⟩
    · exact ⟨xs, rfl, hw.2.2.2.2.1⟩
  have hemp : AllTruthyD [] := fun k v hv => by simp [alook] at hv
  obtain ⟨fin, hfinEq, _, hfinL⟩ :=
    mergeSection_char "financial_details" as [] (hsecwf _ (Or.inl rfl)) hemp
  obtain ⟨pay, hpayEq, _, hpayL⟩ :=
    mergeSection_char "payment_terms" as [] (hsecwf _ (Or.inr (Or.inl rfl))) hemp
  obtain ⟨sl, hslEq, _, hslL⟩ :=
    mergeSection_char "sla" as [] (hsecwf _ (Or.inr (Or.inr (Or.inl rfl)))) hemp
  obtain ⟨dt, hdtEq, _, hdtL⟩ :=
    mergeSection_char "contract_dates" as [] (hsecwf _ (Or.inr (Or.inr (Or.inr rfl)))) hemp
  have hparts := combinePartiesLoop_eq as ([], []) h
  obtain ⟨lr, hlr⟩ := listsLoop_ok as ([], [], []) h
  obtain ⟨kt, rf, ci⟩ := lr
  obtain ⟨vs, hvs, hnums⟩ := collectConf_ok as h
  obtain ⟨s, hsum⟩ := sumConf_ok vs hnums
  refine ⟨(dedupeGo ([], []) (flatParties as)).1, fin, pay, sl, dt, kt, rf, ci,
    (if vs.isEmpty then (4 : ℚ) / 5 else s / vs.length), ?_, rfl, ?_, ?_, ?_, ?_⟩
  · by_cases hempty : vs.isEmpty = true
    · simp [combine_analyses, hparts, hfinEq, hpayEq, hslEq, hdtEq, hlr, hvs, hsum,
            hempty, combinedDict]
    · simp [combine_analyses, hparts, hfinEq, hpayEq, hslEq, hdtEq, hlr, hvs, hsum,
            hempty, combinedDict]
  · intro k
    rw [hfinL k]
    simp [alook, oOr]
  · intro k
    rw [hpayL k]
    simp [alook, oOr]
  · intro k
    rw [hslL k]
    simp [alook, oOr]
  · intro k
    rw [hdtL k]
    simp [alook, oOr]

lemma wf_pair (x y : Val) (hx : wfAnalysisB x = true) (hy : wfAnalysisB y = true) :
    ∀ a ∈ [x, y], wfAnalysisB a = true := by
  intro a ha
  rcases List.mem_cons.mp ha with rfl | ha'
  · exact hx
  · rcases List.mem_cons.mp ha' with rfl | ha''
    · exact hy
    · simp at ha''

lemma wf_single (x : Val) (hx : wfAnalysisB x = true) :
    ∀ a ∈ [x], wfAnalysisB a = true := by
  intro a ha
  rcases List.mem_cons.mp ha with rfl | ha'
  · exact hx
  · simp at ha'

/- ----------------------------------------------------------------------
   C4.  First-wins merging of the single-object sections.
   ---------------------------------------------------------------------- -/

/-- C4: for well-formed analyses and every key of the four single-object
sections (financial_details, payment_terms, sla, contract_dates), the merged
value is the first truthy value across the ordered inputs — later truthy
values never override it. -/
theorem merge_section_first_wins (as : List Val) (h : ∀ a ∈ as, wfAnalysisB a = true)
    (sec k : String)
    (hsec : sec = "financial_details" ∨ sec = "payment_terms" ∨ sec = "sla" ∨
            sec = "contract_dates") :
    ∃ c, combine_analyses as = .ok c ∧ c.at2 sec k = firstTruthy as sec k := by
  obtain ⟨parties, fin, pay, sl, dt, kt, rf, ci, q, hc, hps, hf, hp, hs, hd⟩ :=
    combine_ok as h
  refine ⟨_, hc, ?_⟩
  rcases hsec with rfl | rfl | rfl | rfl
  · rw [show (combinedDict parties fin pay sl dt kt rf ci q).at2 "financial_details" k =
        alook fin k from rfl, hf k, firstTruthy]
  · rw [show (combinedDict parties fin pay sl dt kt rf ci q).at2 "payment_terms" k =
        alook pay k from rfl, hp k, firstTruthy]
  · rw [show (combinedDict parties fin pay sl dt kt rf ci q).at2 "sla" k =
        alook sl k from rfl, hs k, firstTruthy]
  · rw [show (combinedDict parties fin pay sl dt kt rf ci q).at2 "contract_dates" k =
        alook dt k from rfl, hd k, firstTruthy]

/-- Witness for C4: the spec's banking_details scenario, in both input orders,
with the first-wins values "X" and "Y" computed concretely. -/
theorem merge_section_first_wins_witness :
    (wfAnalysisB mergeA = true ∧ wfAnalysisB mergeB = true) ∧
    firstTruthy [mergeA, mergeB] "payment_terms" "banking_details" = some (.str "X") ∧
    firstTruthy [mergeB, mergeA] "payment_terms" "banking_details" = some (.str "Y") ∧
    (∃ c, combine_analyses [mergeA, mergeB] = .ok c ∧
      c.at2 "payment_terms" "banking_details" =
        firstTruthy [mergeA, mergeB] "payment_terms" "banking_details") ∧
    (∃ c, combine_analyses [mergeB, mergeA] = .ok c ∧
      c.at2 "payment_terms" "banking_details" =
        firstTruthy [mergeB, mergeA] "payment_terms" "banking_details") :=
  ⟨⟨by decide, by decide⟩, rfl, rfl,
   merge_section_first_wins [mergeA, mergeB]
     (wf_pair mergeA mergeB (by decide) (by decide)) "payment_terms"
     "banking_details" (Or.inr (Or.inl rfl)),
   merge_section_first_wins [mergeB, mergeA]
     (wf_pair mergeB mergeA (by decide) (by decide)) "payment_terms"
     "banking_details" (Or.inr (Or.inl rfl))⟩

/- ----------------------------------------------------------------------
   C5.  Case-insensitive party deduplication, first occurrence wins.
   ---------------------------------------------------------------------- -/

/-- C5: the merged parties list is a sublist of the concatenated input parties
(so first-seen order is preserved); every nonempty case-insensitive name
occurs exactly once — precisely when it occurs in the input — and the kept
entry is the first occurrence in input order. -/
theorem merge_parties_dedupe_case_insensitive (as : List Val)
    (h : ∀ a ∈ as, wfAnalysisB a = true) :
    ∃ c parties, combine_analyses as = .ok c ∧
      c.at1 "parties" = some (.list parties) ∧
      parties.Sublist (flatParties as) ∧
      (∀ n : String, n ≠ "" →
        parties.countP (fun p => lowerName p == n) =
          (if (flatParties as).any (fun p => lowerName p == n) then 1 else 0)) ∧
      (∀ n : String, n ≠ "" →
        parties.find? (fun p => lowerName p == n) =
          (flatParties as).find? (fun p => lowerName p == n)) := by
  obtain ⟨parties, fin, pay, sl, dt, kt, rf, ci, q, hc, hps, _, _, _, _⟩ :=
    combine_ok as h
  refine ⟨_, parties, hc,
    show (combinedDict parties fin pay sl dt kt rf ci q).at1 "parties" =
      some (.list parties) from rfl, ?_, ?_, ?_⟩
  · obtain ⟨qq, hqq, hsub⟩ := dedupeGo_decomp (flatParties as) [] []
    rw [hps, hqq]
    simpa using hsub
  · intro n hn
    rw [hps, dedupeGo_count (flatParties as) [] [] n hn]
    cases hA : (flatParties as).any (fun p => lowerName p == n) with
    | false =>
        have hall : (flatParties as).all (fun p => !(lowerName p == n)) = true := by
          rw [List.all_eq_true]
          intro x hx
          rw [List.any_eq_false] at hA
          simp [hA x hx]
        simp [hall]
    | true =>
        obtain ⟨x, hx, hpx⟩ := List.any_eq_true.mp hA
        have hall : (flatParties as).all (fun p => !(lowerName p == n)) = false := by
          cases hAll : (flatParties as).all (fun p => !(lowerName p == n)) with
          | true =>
              exfalso
              have := List.all_eq_true.mp hAll x hx
              simp [hpx] at this
          | false => rfl
        simp [hall]
  · intro n hn
    rw [hps]
    exact dedupeGo_find (flatParties as) [] [] n hn (by simp) (by simp)

/-- Witness for C5: "Acme Corp" and "ACME CORP" merge into the single first
occurrence. -/
theorem merge_parties_dedupe_case_insensitive_witness :
    (wfAnalysisB mergeP1 = true ∧ wfAnalysisB mergeP2 = true) ∧
    (dedupeGo ([], []) (flatParties [mergeP1, mergeP2])).1 =
      [Val.dict [("name", .str "Acme Corp"), ("role", .str "customer")]] ∧
    (∃ c parties, combine_analyses [mergeP1, mergeP2] = .ok c ∧
      c.at1 "parties" = some (.list parties) ∧
      parties.Sublist (flatParties [mergeP1, mergeP2]) ∧
      (∀ n : String, n ≠ "" →
        parties.countP (fun p => lowerName p == n) =
          (if (flatParties [mergeP1, mergeP2]).any (fun p => lowerName p == n)
           then 1 else 0)) ∧
      (∀ n : String, n ≠ "" →
        parties.find? (fun p => lowerName p == n) =
          (flatParties [mergeP1, mergeP2]).find? (fun p => lowerName p == n))) :=
  ⟨⟨by decide, by decide⟩, rfl,
   merge_parties_dedupe_case_insensitive [mergeP1, mergeP2]
     (wf_pair mergeP1 mergeP2 (by decide) (by decide))⟩

/- ----------------------------------------------------------------------
   C10.  Parties without a usable name are dropped by the merge.
   ---------------------------------------------------------------------- -/

/-- C10: every entry of the merged parties list has a nonempty
(case-insensitive) name; a party whose name is missing or empty never appears
in the output; and every party with a nonempty name is represented by its
first occurrence. -/
theorem merge_drops_empty_name_parties (as : List Val)
    (h : ∀ a ∈ as, wfAnalysisB a = true) :
    ∃ c parties, combine_analyses as = .ok c ∧
      c.at1 "parties" = some (.list parties) ∧
      (∀ p ∈ parties, lowerName p ≠ "") ∧
      (∀ p ∈ flatParties as, lowerName p = "" → p ∉ parties) ∧
      (∀ p ∈ flatParties as, lowerName p ≠ "" →
        parties.find? (fun q => lowerName q == lowerName p) =
          (flatParties as).find? (fun q => lowerName q == lowerName p) ∧
        ((flatParties as).find? (fun q => lowerName q == lowerName p)).isSome = true) := by
  obtain ⟨parties, fin, pay, sl, dt, kt, rf, ci, q, hc, hps, _, _, _, _⟩ :=
    combine_ok as h
  have hnames : ∀ p ∈ parties, lowerName p ≠ "" := by
    rw [hps]
    exact dedupeGo_names (flatParties as) [] [] (by simp)
  refine ⟨_, parties, hc,
    show (combinedDict parties fin pay sl dt kt rf ci q).at1 "parties" =
      some (.list parties) from rfl, hnames, ?_, ?_⟩
  · intro p hp hname hmem
    exact absurd hname (hnames p hmem)
  · intro p hp hname
    constructor
    · rw [hps]
      exact dedupeGo_find (flatParties as) [] [] (lowerName p) hname (by simp) (by simp)
    · exact List.find?_isSome.mpr ⟨p, hp, by simp⟩

/-- Witness for C10: a nameless party is dropped while the named party of the
same analysis is kept. -/
theorem merge_drops_empty_name_parties_witness :
    wfAnalysisB mergeP2 = true ∧
    (dedupeGo ([], []) (flatParties [mergeP2])).1 =
      [Val.dict [("name", .str "ACME CORP"), ("role", .str "vendor")]] ∧
    (∃ c parties, combine_analyses [mergeP2] = .ok c ∧
      c.at1 "parties" = some (.list parties) ∧
      (∀ p ∈ parties, lowerName p ≠ "") ∧
      (∀ p ∈ flatParties [mergeP2], lowerName p = "" → p ∉ parties) ∧
      (∀ p ∈ flatParties [mergeP2], lowerName p ≠ "" →
        parties.find? (fun q => lowerName q == lowerName p) =
          (flatParties [mergeP2]).find? (fun q => lowerName q == lowerName p) ∧
        ((flatParties [mergeP2]).find? (fun q => lowerName q == lowerName p)).isSome =
          true)) :=
  ⟨by decide, rfl,
   merge_drops_empty_name_parties [mergeP2] (wf_single mergeP2 (by decide))⟩

/- ----------------------------------------------------------------------
   Totality of the scoring engine on well-shaped inputs (for C8)
   ---------------------------------------------------------------------- -/

lemma truthy_false_of_not (v : Val) (h : ¬ v.truthy = true) : v.truthy = false := by
  cases hb : v.truthy
  · rfl
  · exact absurd hb h

lemma lineItemBonus_ok (items : List Val) (h : items.all isDictB = true) :
    ∃ b, lineItemBonus items = .ok b := by
  induction items with
  | nil => exact ⟨0, rfl⟩
  | cons item rest ih =>
      rw [List.all_cons, Bool.and_eq_true] at h
      obtain ⟨b, hb⟩ := ih h.2
      cases item with
      | dict d => simp [lineItemBonus, hb]
      | null => exact absurd h.1 Bool.false_ne_true
      | bool x => exact absurd h.1 Bool.false_ne_true
      | num x => exact absurd h.1 Bool.false_ne_true
      | str x => exact absurd h.1 Bool.false_ne_true
      | list x => exact absurd h.1 Bool.false_ne_true

lemma finScore_ok (xs : List (String × Val)) (h : fdOkB (alook xs "financial_details") = true) :
    ∃ n, calcFinancialScore (Val.dict xs) = .ok n := by
  cases halook : alook xs "financial_details" with
  | none => exact ⟨0, by simp [calcFinancialScore, halook]⟩
  | some v =>
      rw [halook] at h
      by_cases htr : v.truthy = true
      · cases v with
        | dict fs =>
            have h' : lineItemsOkB (alook fs "line_items") = true := h
            cases hli : alook fs "line_items" with
            | none => simp [calcFinancialScore, halook, htr, hli]
            | some w =>
                rw [hli] at h'
                by_cases hwt : w.truthy = true
                · cases w with
                  | list items =>
                      have h'' : (!(Val.list items).truthy || items.all isDictB) = true := h'
                      rw [hwt] at h''
                      simp only [Bool.not_true, Bool.false_or] at h''
                      obtain ⟨b, hb⟩ := lineItemBonus_ok items h''
                      simp [calcFinancialScore, halook, htr, hli, hwt, hb]
                  | null => exact absurd hwt (by simp [Val.truthy])
                  | bool x =>
                      have h'' : (!(Val.bool x).truthy || false) = true := h'
                      rw [hwt] at h''
                      exact absurd h'' (by simp)
                  | num x =>
                      have h'' : (!(Val.num x).truthy || false) = true := h'
                      rw [hwt] at h''
                      exact absurd h'' (by simp)
                  | str x =>
                      have h'' : (!(Val.str x).truthy || false) = true := h'
                      rw [hwt] at h''
                      exact absurd h'' (by simp)
                  | dict d =>
                      have h'' : (!(Val.dict d).truthy || false) = true := h'
                      rw [hwt] at h''
                      exact absurd h'' (by simp)
                · simp [calcFinancialScore, halook, htr, hli,
                        truthy_false_of_not w hwt]
        | null => exact absurd htr (by simp [Val.truthy])
        | bool x =>
            have h' : (!(Val.bool x).truthy) = true := h
            rw [htr] at h'
            exact absurd h' (by simp)
        | num x =>
            have h' : (!(Val.num x).truthy) = true := h
            rw [htr] at h'
            exact absurd h' (by simp)
        | str x =>
            have h' : (!(Val.str x).truthy) = true := h
            rw [htr] at h'
            exact absurd h' (by simp)
        | list x =>
            have h' : (!(Val.list x).truthy) = true := h
            rw [htr] at h'
            exact absurd h' (by simp)
      · exact ⟨0, by simp [calcFinancialScore, halook, truthy_false_of_not v htr]⟩

lemma partiesScore_ok (ps : List Val) (h : ps.all isDictB = true) :
    ∃ n, partiesScore ps = .ok n := by
  induction ps with
  | nil => exact ⟨0, rfl⟩
  | cons p rest ih =>
      rw [List.all_cons, Bool.and_eq_true] at h
      obtain ⟨n, hn⟩ := ih h.2
      cases p with
      | dict d => simp [partiesScore, partyFieldScore, hn]
      | null => exact absurd h.1 Bool.false_ne_true
      | bool x => exact absurd h.1 Bool.false_ne_true
      | num x => exact absurd h.1 Bool.false_ne_true
      | str x => exact absurd h.1 Bool.false_ne_true
      | list x => exact absurd h.1 Bool.false_ne_true

lemma all_take (ps : List Val) (n : Nat) (h : ps.all isDictB = true) :
    (ps.take n).all isDictB = true := by
  rw [List.all_eq_true] at h ⊢
  intro x hx
  exact h x ((List.take_sublist n ps).subset hx)

lemma partyScore_ok (xs : List (String × Val)) (h : partiesOkB (alook xs "parties") = true) :
    ∃ n, calcPartyScore (Val.dict xs) = .ok n := by
  cases halook : alook xs "parties" with
  | none => exact ⟨0, by simp [calcPartyScore, halook]⟩
  | some v =>
      rw [halook] at h
      cases v with
      | list ps =>
          cases hps : ps with
          | nil => exact ⟨0, by simp [calcPartyScore, halook, hps]⟩
          | cons p rest =>
              have h' : (p :: rest).all isDictB = true := hps ▸ h
              rw [List.all_cons, Bool.and_eq_true] at h'
              have h2 : (p :: rest.take 2).all isDictB = true := by
                rw [List.all_cons, Bool.and_eq_true]
                exact ⟨h'.1, all_take rest 2 h'.2⟩
              obtain ⟨n, hn⟩ := partiesScore_ok (p :: rest.take 2) h2
              simp [calcPartyScore, halook, hps, hn]
      | str s =>
          have h' : s.isEmpty = true := h
          have hs : s = "" := (String.isEmpty_iff s).mp h'
          subst hs
          have h0 : (Val.str "").truthy = false := rfl
          exact ⟨0, by simp [calcPartyScore, halook, h0]⟩
      | dict d =>
          have h' : d.isEmpty = true := h
          have hd : d = [] := List.isEmpty_iff.mp h'
          subst hd
          exact ⟨0, by simp [calcPartyScore, halook]⟩
      | null => exact absurd h (by simp [partiesOkB])
      | bool x => exact absurd h (by simp [partiesOkB])
      | num x => exact absurd h (by simp [partiesOkB])

lemma payScore_ok (xs : List (String × Val)) (h : falsyOrDictOpt (alook xs "payment_terms") = true) :
    ∃ n, calcPaymentScore (Val.dict xs) = .ok n := by
  cases halook : alook xs "payment_terms" with
  | none => exact ⟨0, by simp [calcPaymentScore, halook]⟩
  | some v =>
      rw [halook] at h
      have h' : (!v.truthy || isDictB v) = true := h
      by_cases htr : v.truthy = true
      · rw [htr] at h'
        cases v with
        | dict fs => simp [calcPaymentScore, halook, htr]
        | null => exact absurd h' (by simp [isDictB])
        | bool x => exact absurd h' (by simp [isDictB])
        | num x => exact absurd h' (by simp [isDictB])
        | str x => exact absurd h' (by simp [isDictB])
        | list x => exact absurd h' (by simp [isDictB])
      · exact ⟨0, by simp [calcPaymentScore, halook, truthy_false_of_not v htr]⟩

lemma slaScore_ok (xs : List (String × Val)) (h : falsyOrDictOpt (alook xs "sla") = true) :
    ∃ n, calcSlaScore (Val.dict xs) = .ok n := by
  cases halook : alook xs "sla" with
  | none => exact ⟨0, by simp [calcSlaScore, halook]⟩
  | some v =>
      rw [halook] at h
      have h' : (!v.truthy || isDictB v) = true := h
      by_cases htr : v.truthy = true
      · rw [htr] at h'
        cases v with
        | dict fs => simp [calcSlaScore, halook, htr]
        | null => exact absurd h' (by simp [isDictB])
        | bool x => exact absurd h' (by simp [isDictB])
        | num x => exact absurd h' (by simp [isDictB])
        | str x => exact absurd h' (by simp [isDictB])
        | list x => exact absurd h' (by simp [isDictB])
      · exact ⟨0, by simp [calcSlaScore, halook, truthy_false_of_not v htr]⟩

lemma anyContact_ok (ps : List Val) (h : ps.all isDictB = true) :
    ∃ b, anyContact ps = .ok b := by
  induction ps with
  | nil => exact ⟨false, rfl⟩
  | cons p rest ih =>
      rw [List.all_cons, Bool.and_eq_true] at h
      obtain ⟨b, hb⟩ := ih h.2
      cases p with
      | dict d =>
          by_cases hc : (((alook d "email").getD .null).truthy ||
              ((alook d "phone").getD .null).truthy) = true
          · refine ⟨true, ?_⟩
            simp only [anyContact, get1_dict, exBind_ok]
            rw [if_pos hc]
            rfl
          · refine ⟨b, ?_⟩
            simp only [anyContact, get1_dict, exBind_ok]
            rw [if_neg hc]
            exact hb
      | null => exact absurd h.1 Bool.false_ne_true
      | bool x => exact absurd h.1 Bool.false_ne_true
      | num x => exact absurd h.1 Bool.false_ne_true
      | str x => exact absurd h.1 Bool.false_ne_true
      | list x => exact absurd h.1 Bool.false_ne_true

lemma contactScore_ok (xs : List (String × Val))
    (ha : falsyOrDictOpt (alook xs "account_info") = true)
    (hp : partiesOkB (alook xs "parties") = true) :
    ∃ n, calcContactScore (Val.dict xs) = .ok n := by
  have hiter : ∃ ps, (((alook xs "parties").getD (.list [])).iter = Except.ok ps) ∧
      ps.all isDictB = true := by
    cases halook : alook xs "parties" with
    | none => exact ⟨[], rfl, rfl⟩
    | some v =>
        rw [halook] at hp
        cases v with
        | list ps => exact ⟨ps, rfl, hp⟩
        | str s =>
            have hs : s = "" := (String.isEmpty_iff s).mp hp
            subst hs
            exact ⟨[], rfl, rfl⟩
        | dict d =>
            have hd : d = [] := List.isEmpty_iff.mp hp
            subst hd
            exact ⟨[], rfl, rfl⟩
        | null => exact absurd hp (by simp [partiesOkB])
        | bool x => exact absurd hp (by simp [partiesOkB])
        | num x => exact absurd hp (by simp [partiesOkB])
  obtain ⟨ps, hpsEq, hpsWf⟩ := hiter
  obtain ⟨b, hb⟩ := anyContact_ok ps hpsWf
  cases halook : alook xs "account_info" with
  | none => simp [calcContactScore, halook, hpsEq, hb]
  | some v =>
      rw [halook] at ha
      have ha' : (!v.truthy || isDictB v) = true := ha
      by_cases htr : v.truthy = true
      · rw [htr] at ha'
        cases v with
        | dict fs => simp [calcContactScore, halook, htr, hpsEq, hb]
        | null => exact absurd ha' (by simp [isDictB])
        | bool x => exact absurd ha' (by simp [isDictB])
        | num x => exact absurd ha' (by simp [isDictB])
        | str x => exact absurd ha' (by simp [isDictB])
        | list x => exact absurd ha' (by simp [isDictB])
      · simp [calcContactScore, halook, truthy_false_of_not v htr, hpsEq, hb]

lemma ite_ok (c : Prop) [Decidable c] (a b : List String) :
    ∃ g, (if c then (Except.ok a : Except String (List String)) else .ok b) = .ok g := by
  by_cases h : c <;> simp [h]

lemma partyGaps_ok : ∀ (ps : List Val) (i : ℕ), ps.all isDictB = true →
    ∃ g, partyGaps i ps = .ok g := by
  intro ps
  induction ps with
  | nil => intro i _; exact ⟨[], rfl⟩
  | cons p rest ih =>
      intro i h
      rw [List.all_cons, Bool.and_eq_true] at h
      obtain ⟨g, hg⟩ := ih (i + 1) h.2
      cases p with
      | dict d => simp [partyGaps, hg]
      | null => exact absurd h.1 Bool.false_ne_true
      | bool x => exact absurd h.1 Bool.false_ne_true
      | num x => exact absurd h.1 Bool.false_ne_true
      | str x => exact absurd h.1 Bool.false_ne_true
      | list x => exact absurd h.1 Bool.false_ne_true

lemma gapsParties_ok (xs : List (String × Val)) (h : partiesOkB (alook xs "parties") = true) :
    ∃ g, gapsParties (Val.dict xs) = .ok g := by
  cases halook : alook xs "parties" with
  | none => simp [gapsParties, halook]
  | some v =>
      rw [halook] at h
      cases v with
      | list ps =>
          cases hps : ps with
          | nil => simp [gapsParties, halook, hps]
          | cons p rest =>
              have h' : (p :: rest).all isDictB = true := hps ▸ h
              obtain ⟨g, hg⟩ := partyGaps_ok (p :: rest) 0 h'
              exact ⟨g, by simp [gapsParties, halook, hps, hg]⟩
      | str s =>
          have hs : s = "" := (String.isEmpty_iff s).mp h
          subst hs
          have h0 : (Val.str "").truthy = false := rfl
          simp [gapsParties, halook, h0]
      | dict d =>
          have hd : d = [] := List.isEmpty_iff.mp h
          subst hd
          simp [gapsParties, halook]
      | null => exact absurd h (by simp [partiesOkB])
      | bool x => exact absurd h (by simp [partiesOkB])
      | num x => exact absurd h (by simp [partiesOkB])

lemma gapsFinancial_ok (xs : List (String × Val))
    (h : fdOkB (alook xs "financial_details") = true) :
    ∃ g, gapsFinancial (Val.dict xs) = .ok g := by
  cases halook : alook xs "financial_details" with
  | none => simp [gapsFinancial, halook]
  | some v =>
      rw [halook] at h
      by_cases htr : v.truthy = true
      · cases v with
        | dict fs => simp [gapsFinancial, halook, htr]
        | null => exact absurd htr (by simp [Val.truthy])
        | bool x =>
            have h' : (!(Val.bool x).truthy) = true := h
            rw [htr] at h'
            exact absurd h' (by simp)
        | num x =>
            have h' : (!(Val.num x).truthy) = true := h
            rw [htr] at h'
            exact absurd h' (by simp)
        | str x =>
            have h' : (!(Val.str x).truthy) = true := h
            rw [htr] at h'
            exact absurd h' (by simp)
        | list x =>
            have h' : (!(Val.list x).truthy) = true := h
            rw [htr] at h'
            exact absurd h' (by simp)
      · simp [gapsFinancial, halook, truthy_false_of_not v htr]

lemma gapsSection_ok (xs : List (String × Val)) (key : String)
    (frag : Val → Except String (List String))
    (h : falsyOrDictOpt (alook xs key) = true)
    (hnone : alook xs key = Option.none → ∃ g, frag (Val.dict xs) = .ok g)
    (hfalsy : ∀ v, alook xs key = some v → v.truthy = false →
      ∃ g, frag (Val.dict xs) = .ok g)
    (hdict : ∀ d, alook xs key = some (Val.dict d) → ∃ g, frag (Val.dict xs) = .ok g) :
    ∃ g, frag (Val.dict xs) = .ok g := by
  cases halook : alook xs key with
  | none => exact hnone halook
  | some v =>
      rw [halook] at h
      have h' : (!v.truthy || isDictB v) = true := h
      by_cases htr : v.truthy = true
      · rw [htr] at h'
        cases v with
        | dict d => exact hdict d halook
        | null => exact absurd h' (by simp [isDictB])
        | bool x => exact absurd h' (by simp [isDictB])
        | num x => exact absurd h' (by simp [isDictB])
        | str x => exact absurd h' (by simp [isDictB])
        | list x => exact absurd h' (by simp [isDictB])
      · exact hfalsy v halook (truthy_false_of_not v htr)

lemma gaps_ok (xs : List (String × Val)) (h : wfParsed xs = true) :
    ∃ g, identifyGaps (Val.dict xs) = .ok g := by
  rw [wfParsed] at h
  repeat rw [Bool.and_eq_true] at h
  obtain ⟨g1, hg1⟩ := gapsParties_ok xs h.1.1.1.1.2
  obtain ⟨g2, hg2⟩ := gapsFinancial_ok xs h.1.1.1.1.1
  obtain ⟨g3, hg3⟩ := gapsSection_ok xs "payment_terms" gapsPayment h.1.1.1.2
    (fun hn => by simp [gapsPayment, hn])
    (fun v hv hf => by simp [gapsPayment, hv, hf])
    (fun d hd => by simp only [gapsPayment, get1_dict, exBind_ok, hd, Option.getD_some]; exact ite_ok _ _ _)
  obtain ⟨g4, hg4⟩ := gapsSection_ok xs "account_info" gapsAccount h.1.2
    (fun hn => by simp [gapsAccount, hn])
    (fun v hv hf => by simp [gapsAccount, hv, hf])
    (fun d hd => by simp only [gapsAccount, get1_dict, exBind_ok, hd, Option.getD_some]; exact ite_ok _ _ _)
  obtain ⟨g5, hg5⟩ := gapsSection_ok xs "revenue_classification" gapsRevenue h.2
    (fun hn => by simp [gapsRevenue, hn])
    (fun v hv hf => by simp [gapsRevenue, hv, hf])
    (fun d hd => by simp only [gapsRevenue, get1_dict, exBind_ok, hd, Option.getD_some]; exact ite_ok _ _ _)
  obtain ⟨g6, hg6⟩ := gapsSection_ok xs "sla" gapsSla h.1.1.2
    (fun hn => by simp [gapsSla, hn])
    (fun v hv hf => by simp [gapsSla, hv, hf])
    (fun d hd => by simp only [gapsSla, get1_dict, exBind_ok, hd, Option.getD_some]; exact ite_ok _ _ _)
  simp [identifyGaps, hg1, hg2, hg3, hg4, hg5, hg6]

/- ----------------------------------------------------------------------
   C8 (amended).  On well-shaped inputs the scoring engine raises nothing
   and returns exactly the weighted component sum; missing category keys
   score 0 for their component.
   ---------------------------------------------------------------------- -/

/-- C8 (amended): on any input dict whose category values are well-shaped (a
decidable shape condition; absent keys are always well-shaped), every
component scorer returns a value, the overall score is exactly the weighted
sum of the five component scores with weights 30/25/20/15/10 divided by 100
(the two-decimal rounding is the identity there), and each absent category
key yields component score 0.  Being total Lean functions, the embedded
engine never raises; malformed category values instead take the
`Scoring error` path exhibited by the counterexample. -/
theorem scorer_total_weighted_sum (xs : List (String × Val)) (h : wfParsed xs = true) :
    ∃ f p pay s c gaps,
      calcFinancialScore (Val.dict xs) = .ok f ∧
      calcPartyScore (Val.dict xs) = .ok p ∧
      calcPaymentScore (Val.dict xs) = .ok pay ∧
      calcSlaScore (Val.dict xs) = .ok s ∧
      calcContactScore (Val.dict xs) = .ok c ∧
      identifyGaps (Val.dict xs) = .ok gaps ∧
      calculate_score (Val.dict xs) =
        (((f : ℚ) * 30 + (p : ℚ) * 25 + (pay : ℚ) * 20 + (s : ℚ) * 15 + (c : ℚ) * 10) / 100,
         gaps) ∧
      (alook xs "financial_details" = Option.none → f = 0) ∧
      (alook xs "parties" = Option.none → p = 0) ∧
      (alook xs "payment_terms" = Option.none → pay = 0) ∧
      (alook xs "sla" = Option.none → s = 0) ∧
      (alook xs "account_info" = Option.none ∧ alook xs "parties" = Option.none → c = 0) := by
  have h' := h
  rw [wfParsed] at h'
  repeat rw [Bool.and_eq_true] at h'
  obtain ⟨f, hf⟩ := finScore_ok xs h'.1.1.1.1.1
  obtain ⟨p, hp⟩ := partyScore_ok xs h'.1.1.1.1.2
  obtain ⟨pay, hpay⟩ := payScore_ok xs h'.1.1.1.2
  obtain ⟨s, hs⟩ := slaScore_ok xs h'.1.1.2
  obtain ⟨c, hc⟩ := contactScore_ok xs h'.1.2 h'.1.1.1.1.2
  obtain ⟨gaps, hg⟩ := gaps_ok xs h
  refine ⟨f, p, pay, s, c, gaps, hf, hp, hpay, hs, hc, hg, ?_, ?_, ?_, ?_, ?_, ?_⟩
  · have hcast : ((f : ℚ) * 30 + (p : ℚ) * 25 + (pay : ℚ) * 20 + (s : ℚ) * 15 + (c : ℚ) * 10)
        = ((f * 30 + p * 25 + pay * 20 + s * 15 + c * 10 : ℕ) : ℚ) := by
      push_cast
      ring
    have hr2 : round2 (((f : ℚ) * 30 + (p : ℚ) * 25 + (pay : ℚ) * 20 + (s : ℚ) * 15 +
        (c : ℚ) * 10) / 100) =
        ((f : ℚ) * 30 + (p : ℚ) * 25 + (pay : ℚ) * 20 + (s : ℚ) * 15 + (c : ℚ) * 10) / 100 := by
      rw [hcast]
      exact round2_div100 _
    simp only [calculate_score, scoreBody, hf, hp, hpay, hs, hc, hg, exBind_ok, exPure]
    rw [hr2]
  · intro hnone
    have h0 : calcFinancialScore (Val.dict xs) = .ok 0 := by
      simp [calcFinancialScore, hnone]
    rw [hf] at h0
    exact Except.ok.inj h0
  · intro hnone
    have h0 : calcPartyScore (Val.dict xs) = .ok 0 := by
      simp [calcPartyScore, hnone]
    rw [hp] at h0
    exact Except.ok.inj h0
  · intro hnone
    have h0 : calcPaymentScore (Val.dict xs) = .ok 0 := by
      simp [calcPaymentScore, hnone]
    rw [hpay] at h0
    exact Except.ok.inj h0
  · intro hnone
    have h0 : calcSlaScore (Val.dict xs) = .ok 0 := by
      simp [calcSlaScore, hnone]
    rw [hs] at h0
    exact Except.ok.inj h0
  · rintro ⟨hna, hnp⟩
    have h0 : calcContactScore (Val.dict xs) = .ok 0 := by
      simp [calcContactScore, hna, hnp, Val.iter, anyContact]
    rw [hc] at h0
    exact Except.ok.inj h0

/-- Witness for C8's amended theorem at a concrete well-shaped input. -/
theorem scorer_total_weighted_sum_witness :
    wfParsed [("parties", Val.list [Val.dict [("name", Val.str "A"),
        ("email", Val.str "a@b.c")]]),
      ("payment_terms", Val.dict [("payment_terms", Val.str "Net 30")])] = true ∧
    (∃ f p pay s c gaps,
      calcFinancialScore (Val.dict [("parties", Val.list [Val.dict [("name", Val.str "A"),
          ("email", Val.str "a@b.c")]]),
        ("payment_terms", Val.dict [("payment_terms", Val.str "Net 30")])]) = .ok f ∧
      calcPartyScore (Val.dict [("parties", Val.list [Val.dict [("name", Val.str "A"),
          ("email", Val.str "a@b.c")]]),
        ("payment_terms", Val.dict [("payment_terms", Val.str "Net 30")])]) = .ok p ∧
      calcPaymentScore (Val.dict [("parties", Val.list [Val.dict [("name", Val.str "A"),
          ("email", Val.str "a@b.c")]]),
        ("payment_terms", Val.dict [("payment_terms", Val.str "Net 30")])]) = .ok pay ∧
      calcSlaScore (Val.dict [("parties", Val.list [Val.dict [("name", Val.str "A"),
          ("email", Val.str "a@b.c")]]),
        ("payment_terms", Val.dict [("payment_terms", Val.str "Net 30")])]) = .ok s ∧
      calcContactScore (Val.dict [("parties", Val.list [Val.dict [("name", Val.str "A"),
          ("email", Val.str "a@b.c")]]),
        ("payment_terms", Val.dict [("payment_terms", Val.str "Net 30")])]) = .ok c ∧
      identifyGaps (Val.dict [("parties", Val.list [Val.dict [("name", Val.str "A"),
          ("email", Val.str "a@b.c")]]),
        ("payment_terms", Val.dict [("payment_terms", Val.str "Net 30")])]) = .ok gaps ∧
      calculate_score (Val.dict [("parties", Val.list [Val.dict [("name", Val.str "A"),
          ("email", Val.str "a@b.c")]]),
        ("payment_terms", Val.dict [("payment_terms", Val.str "Net 30")])]) =
        (((f : ℚ) * 30 + (p : ℚ) * 25 + (pay : ℚ) * 20 + (s : ℚ) * 15 + (c : ℚ) * 10) / 100,
         gaps) ∧
      (alook [("parties", Val.list [Val.dict [("name", Val.str "A"),
          ("email", Val.str "a@b.c")]]),
        ("payment_terms", Val.dict [("payment_terms", Val.str "Net 30")])]
          "financial_details" = Option.none → f = 0) ∧
      (alook [("parties", Val.list [Val.dict [("name", Val.str "A"),
          ("email", Val.str "a@b.c")]]),
        ("payment_terms", Val.dict [("payment_terms", Val.str "Net 30")])]
          "parties" = Option.none → p = 0) ∧
      (alook [("parties", Val.list [Val.dict [("name", Val.str "A"),
          ("email", Val.str "a@b.c")]]),
        ("payment_terms", Val.dict [("payment_terms", Val.str "Net 30")])]
          "payment_terms" = Option.none → pay = 0) ∧
      (alook [("parties", Val.list [Val.dict [("name", Val.str "A"),
          ("email", Val.str "a@b.c")]]),
        ("payment_terms", Val.dict [("payment_terms", Val.str "Net 30")])]
          "sla" = Option.none → s = 0) ∧
      (alook [("parties", Val.list [Val.dict [("name", Val.str "A"),
          ("email", Val.str "a@b.c")]]),
        ("payment_terms", Val.dict [("payment_terms", Val.str "Net 30")])]
          "account_info" = Option.none ∧
       alook [("parties", Val.list [Val.dict [("name", Val.str "A"),
          ("email", Val.str "a@b.c")]]),
        ("payment_terms", Val.dict [("payment_terms", Val.str "Net 30")])]
          "parties" = Option.none → c = 0)) :=
  ⟨by decide,
   scorer_total_weighted_sum
     [("parties", Val.list [Val.dict [("name", Val.str "A"), ("email", Val.str "a@b.c")]]),
      ("payment_terms", Val.dict [("payment_terms", Val.str "Net 30")])] (by decide)⟩

end ContractIntelligence
